import Mathlib

/-!
Verification of the pota-stats pipeline (collector normalization and
aggregator rollup logic) against its natural-language specification.
The TypeScript sources are shallowly embedded: JS `Map`/`Set` (which
preserve insertion order) become association lists / duplicate-free
lists, JS numbers become rationals (with an explicit NaN wrapper where
the spec talks about NaN), and the object store becomes an explicit
environment of list/read/put outcomes.
-/

namespace PotaStats

/-! ## JS string `split` on a single-character separator

`s.split(c)` in JS keeps empty pieces and returns `[""]` on the empty
string.  We model it by structural recursion on the character list. -/

def splitOnChar (c : Char) : List Char → List (List Char)
  | [] => [[]]
  | x :: xs =>
    let r := splitOnChar c xs
    if x = c then [] :: r
    else
      match r with
      | [] => [[x]]
      | h :: t => (x :: h) :: t

/-- JS `s.split(sep)` for a one-character separator, producing strings. -/
def jsSplit (c : Char) (s : String) : List String :=
  (splitOnChar c s.data).map (fun l => String.mk l)

/-! ## JS `Set` (insertion-ordered, duplicate-free list) -/

def listInsert (l : List String) (a : String) : List String :=
  if a ∈ l then l else l ++ [a]

def insertAll (l : List String) (xs : List String) : List String :=
  xs.foldl listInsert l

/-! ## Collector: band classification and entity extraction
(src/workers/pota-collector/src/index.ts, also exported in the test
utility module). JS numbers are modelled as rationals plus an explicit
NaN, on which every comparison is false. -/

inductive JSNum where
  | nan : JSNum
  | val (q : ℚ) : JSNum
deriving DecidableEq

/-- JS `x / 1000` (NaN propagates). -/
def JSNum.div1000 : JSNum → JSNum
  | nan => nan
  | val q => val (q / 1000)

/-- JS `x >= b` (false on NaN). -/
def JSNum.jge (a : JSNum) (b : ℚ) : Bool :=
  match a with
  | nan => false
  | val q => decide (b ≤ q)

/-- JS `x <= b` (false on NaN). -/
def JSNum.jle (a : JSNum) (b : ℚ) : Bool :=
  match a with
  | nan => false
  | val q => decide (q ≤ b)

/-- `freqToBand` from the collector: frequency in kHz, converted to MHz,
classified by an inclusive if-chain. -/
def freqToBand (freqKhz : JSNum) : String :=
  let m := freqKhz.div1000
  if m.jge 1.8 && m.jle 2.0 then "160m"
  else if m.jge 3.5 && m.jle 4.0 then "80m"
  else if m.jge 5.3 && m.jle 5.4 then "60m"
  else if m.jge 7.0 && m.jle 7.3 then "40m"
  else if m.jge 10.1 && m.jle 10.15 then "30m"
  else if m.jge 14.0 && m.jle 14.35 then "20m"
  else if m.jge 18.068 && m.jle 18.168 then "17m"
  else if m.jge 21.0 && m.jle 21.45 then "15m"
  else if m.jge 24.89 && m.jle 24.99 then "12m"
  else if m.jge 28.0 && m.jle 29.7 then "10m"
  else if m.jge 50.0 && m.jle 54.0 then "6m"
  else if m.jge 144.0 && m.jle 148.0 then "2m"
  else if m.jge 420.0 && m.jle 450.0 then "70cm"
  else "other"

/-- The band table of §4.1 of the spec: inclusive MHz ranges. -/
def bandTable : List (ℚ × ℚ × String) :=
  [(1.8, 2.0, "160m"), (3.5, 4.0, "80m"), (5.3, 5.4, "60m"),
   (7.0, 7.3, "40m"), (10.1, 10.15, "30m"), (14.0, 14.35, "20m"),
   (18.068, 18.168, "17m"), (21.0, 21.45, "15m"), (24.89, 24.99, "12m"),
   (28.0, 29.7, "10m"), (50.0, 54.0, "6m"), (144.0, 148.0, "2m"),
   (420.0, 450.0, "70cm")]

/-- First-matching-row lookup over the spec table. -/
def bandLookup (m : ℚ) : List (ℚ × ℚ × String) → String
  | [] => "other"
  | (lo, hi, b) :: rest => if lo ≤ m ∧ m ≤ hi then b else bandLookup m rest

/-- The band the spec's table assigns to a frequency in MHz. -/
def specBand (m : ℚ) : String := bandLookup m bandTable

/-- `extractEntity` from the collector: `reference.split('-')[0] ?? 'unknown'`.
JS `split` never returns an empty array, so the fallback is only reached
in the (impossible) empty case. -/
def extractEntity (reference : String) : String :=
  match jsSplit '-' reference with
  | [] => "unknown"
  | p :: _ => p

/-- Spec-side description of entity extraction: the prefix of the
reference before the first `'-'`. -/
def entityBeforeDash (reference : String) : String :=
  String.mk (reference.data.takeWhile (fun c => c ≠ '-'))

/-! ## Aggregator data model (src/workers/pota-aggregator/src/index.ts) -/

structure NormalizedSpot where
  ts : String
  spotId : Int
  activator : String
  reference : String
  freq : ℚ
  mode : String
  band : String
  source : String
  entity : String
  grid : String
  lat : ℚ
  lon : ℚ
  name : String
  spotter : String
  state : Option String
deriving DecidableEq, Repr

structure BaseAggregate where
  mode : String
  band : String
  entity : String
  spot_count : Nat
  activation_count : Nat
  unique_activators : Nat
  unique_parks : Nat
  activators : List String
  parks : List String
  activations : List String
  state_activators : List String
deriving DecidableEq, Repr

/-- `HourlyAggregate extends BaseAggregate` with an `hour` field; the
daily/monthly variants carry `date`/`month` the same way. -/
structure HourlyAggregate extends BaseAggregate where
  hour : String
deriving DecidableEq, Repr

/-! ## Insertion-ordered association map (JS `Map`)

`mapUpd` updates the value at the first occurrence of the key in place,
or appends a fresh entry at the end — exactly the observable behaviour
of `Map.get`/`Map.set` iterated in insertion order. -/

def mapUpd {α : Type} (k : String) (f : Option α → α) :
    List (String × α) → List (String × α)
  | [] => [(k, f none)]
  | (k', v) :: rest =>
    if k' = k then (k, f (some v)) :: rest else (k', v) :: mapUpd k f rest

def mapLookup {α : Type} (k : String) : List (String × α) → Option α
  | [] => none
  | (k', v) :: rest => if k' = k then some v else mapLookup k rest

/-- Fold a list of elements into a keyed group map, starting from `m`:
the shape shared by `aggregateSpotsToHourly`'s reduce and
`mergeAggregatesIntoGroups`. -/
def foldGroups {β α : Type} (keyOf : β → String) (init : α) (step : α → β → α)
    (m : List (String × α)) (xs : List β) : List (String × α) :=
  xs.foldl (fun acc b => mapUpd (keyOf b) (fun g => step (g.getD init) b) acc) m

/-! ## Grouping spots (aggregateSpotsToHourly) -/

structure SpotGroup where
  spots : List NormalizedSpot
  activators : List String
  parks : List String
  activations : List String
  stateActivators : List String
deriving DecidableEq, Repr

def emptySpotGroup : SpotGroup := ⟨[], [], [], [], []⟩

/-- The composite key `` `${mode}|${band}|${entity}` ``. -/
def spotKey (s : NormalizedSpot) : String :=
  s.mode ++ "|" ++ s.band ++ "|" ++ s.entity

def addSpotToGroup (g : SpotGroup) (s : NormalizedSpot) : SpotGroup where
  spots := g.spots ++ [s]
  activators := listInsert g.activators s.activator
  parks := listInsert g.parks s.reference
  activations := listInsert g.activations (s.activator ++ "|" ++ s.reference)
  stateActivators :=
    match s.state with
    | some st => listInsert g.stateActivators (st ++ "|" ++ s.activator)
    | none => g.stateActivators

def spotGroups (spots : List NormalizedSpot) : List (String × SpotGroup) :=
  foldGroups spotKey emptySpotGroup addSpotToGroup [] spots

/-- Recover `(mode, band, entity)` from a group key by
`key.split('|')` and destructuring the first three pieces. -/
def keyTriple (k : String) : String × String × String :=
  let parts := jsSplit '|' k
  (parts.getD 0 "", parts.getD 1 "", parts.getD 2 "")

/-- The output filter `Boolean(mode && band && entity)`. -/
def tripleOk (t : String × String × String) : Prop :=
  t.1 ≠ "" ∧ t.2.1 ≠ "" ∧ t.2.2 ≠ ""

instance (t : String × String × String) : Decidable (tripleOk t) := by
  unfold tripleOk; infer_instance

/-- `aggregateSpotsToHourly`: group by composite key, drop keys whose
first three `'|'`-separated pieces are not all non-empty, and emit one
row per surviving group. -/
def aggregateSpotsToHourly (spots : List NormalizedSpot) (hour : String) :
    List HourlyAggregate :=
  ((spotGroups spots).map (fun kg => (keyTriple kg.1, kg.2))).filter
      (fun tg => decide (tripleOk tg.1)) |>.map
    (fun tg =>
      { hour := hour
        mode := tg.1.1
        band := tg.1.2.1
        entity := tg.1.2.2
        spot_count := tg.2.spots.length
        activation_count := tg.2.activations.length
        unique_activators := tg.2.activators.length
        unique_parks := tg.2.parks.length
        activators := tg.2.activators
        parks := tg.2.parks
        activations := tg.2.activations
        state_activators := tg.2.stateActivators })

/-! ## Merging aggregates (mergeAggregatesIntoGroups / groupsToAggregates) -/

structure AggregateGroup where
  spotCount : Nat
  activators : List String
  parks : List String
  activations : List String
  stateActivators : List String
deriving DecidableEq, Repr

def emptyAggGroup : AggregateGroup := ⟨0, [], [], [], []⟩

def aggKey (a : BaseAggregate) : String :=
  a.mode ++ "|" ++ a.band ++ "|" ++ a.entity

def addAggToGroup (g : AggregateGroup) (a : BaseAggregate) : AggregateGroup where
  spotCount := g.spotCount + a.spot_count
  activators := insertAll g.activators a.activators
  parks := insertAll g.parks a.parks
  activations := insertAll g.activations a.activations
  stateActivators := insertAll g.stateActivators a.state_activators

/-- `mergeAggregatesIntoGroups(aggregates, groups)`: fold each row into
the shared group map. -/
def mergeAggregatesIntoGroups (aggregates : List BaseAggregate)
    (groups : List (String × AggregateGroup)) : List (String × AggregateGroup) :=
  foldGroups aggKey emptyAggGroup addAggToGroup groups aggregates

/-- `groupsToAggregates`: one row per group whose key splits into a
fully non-empty `(mode, band, entity)` triple; cardinalities are the
sizes of the accumulated sets. -/
def groupsToAggregates (groups : List (String × AggregateGroup)) :
    List BaseAggregate :=
  ((groups.map (fun kg => (keyTriple kg.1, kg.2))).filter
      (fun tg => decide (tripleOk tg.1))).map
    (fun tg =>
      { mode := tg.1.1
        band := tg.1.2.1
        entity := tg.1.2.2
        spot_count := tg.2.spotCount
        activation_count := tg.2.activations.length
        unique_activators := tg.2.activators.length
        unique_parks := tg.2.parks.length
        activators := tg.2.activators
        parks := tg.2.parks
        activations := tg.2.activations
        state_activators := tg.2.stateActivators })

/-! ## Spot deduplication by id (aggregateHour, lines 616–631) -/

/-- In-place update of the JS `Map<number, NormalizedSpot>` used for
deduplication. -/
def intMapSet (m : List (Int × NormalizedSpot)) (k : Int) (v : NormalizedSpot) :
    List (Int × NormalizedSpot) :=
  match m with
  | [] => [(k, v)]
  | (k', v') :: rest =>
    if k' = k then (k, v) :: rest else (k', v') :: intMapSet rest k v

/-- The spot lists of the reads that succeeded (failed reads are logged
and skipped). -/
def okSpotLists (rs : List (Except String (List NormalizedSpot))) :
    List (List NormalizedSpot) :=
  rs.foldr (fun r acc => match r with | .error _ => acc | .ok spots => spots :: acc) []

/-- The dedup fold of `aggregateHour`: every successfully read spot is
written into the map keyed by `spotId` (last write wins), and the map's
values are taken in insertion order. -/
def collectSpots (rs : List (Except String (List NormalizedSpot))) :
    List NormalizedSpot :=
  (rs.foldl
      (fun acc r =>
        match r with
        | .error _ => acc
        | .ok spots => spots.foldl (fun m s => intMapSet m s.spotId s) acc)
      []).map (fun p => p.2)

/-- The elements of `xs` with group key `k`. -/
def keyFilter {β : Type} (keyOf : β → String) (k : String) (xs : List β) : List β :=
  xs.filter (fun b => decide (keyOf b = k))

/-! ## Row invariants (C4) -/

/-- The per-row invariant of §3 of the spec: cardinality fields count
the distinct elements of their collection, and `spot_count` dominates
`activation_count` and `unique_activators`. -/
def aggregateInvariant (a : BaseAggregate) : Prop :=
  a.unique_activators = a.activators.dedup.length ∧
  a.unique_parks = a.parks.dedup.length ∧
  a.activation_count = a.activations.dedup.length ∧
  a.activation_count ≤ a.spot_count ∧
  a.unique_activators ≤ a.spot_count

instance (a : BaseAggregate) : Decidable (aggregateInvariant a) := by
  unfold aggregateInvariant; infer_instance

/-- Inductive invariant of a spot group under `addSpotToGroup`. -/
def spotGroupInv (g : SpotGroup) : Prop :=
  g.activators.Nodup ∧ g.parks.Nodup ∧ g.activations.Nodup ∧
  g.stateActivators.Nodup ∧
  g.activators.length ≤ g.spots.length ∧ g.activations.length ≤ g.spots.length

/-- Inductive invariant of an aggregate group under `addAggToGroup`. -/
def aggGroupInv (g : AggregateGroup) : Prop :=
  g.activators.Nodup ∧ g.parks.Nodup ∧ g.activations.Nodup ∧
  g.stateActivators.Nodup ∧
  g.activations.length ≤ g.spotCount ∧ g.activators.length ≤ g.spotCount

/-! ## Pipe-free fields and dropping of empty-keyed groups (C10, C1) -/

/-- A string not containing the group-key separator `'|'`. -/
def pipeFreeStr (s : String) : Prop := '|' ∉ s.data

instance (s : String) : Decidable (pipeFreeStr s) := by
  unfold pipeFreeStr; infer_instance

def spotPipeFree (s : NormalizedSpot) : Prop :=
  pipeFreeStr s.mode ∧ pipeFreeStr s.band ∧ pipeFreeStr s.entity

instance (s : NormalizedSpot) : Decidable (spotPipeFree s) := by
  unfold spotPipeFree; infer_instance

def aggPipeFree (a : BaseAggregate) : Prop :=
  pipeFreeStr a.mode ∧ pipeFreeStr a.band ∧ pipeFreeStr a.entity

instance (a : BaseAggregate) : Decidable (aggPipeFree a) := by
  unfold aggPipeFree; infer_instance

/-- JS truthiness of the three fields of a spot. -/
def goodSpot (s : NormalizedSpot) : Prop :=
  s.mode ≠ "" ∧ s.band ≠ "" ∧ s.entity ≠ ""

instance (s : NormalizedSpot) : Decidable (goodSpot s) := by
  unfold goodSpot; infer_instance

/-- JS truthiness of the three fields of an aggregate row. -/
def goodAgg (a : BaseAggregate) : Prop :=
  a.mode ≠ "" ∧ a.band ≠ "" ∧ a.entity ≠ ""

instance (a : BaseAggregate) : Decidable (goodAgg a) := by
  unfold goodAgg; infer_instance

/-- A group key surviving the output filter. -/
def goodKey (k : String) : Prop := tripleOk (keyTriple k)

instance (k : String) : Decidable (goodKey k) := by
  unfold goodKey; infer_instance

def filterKeys {α : Type} (p : String → Prop) [DecidablePred p]
    (m : List (String × α)) : List (String × α) :=
  m.filter (fun kg => decide (p kg.1))

def c4child : BaseAggregate :=
  ⟨"CW", "40m", "K", 2, 1, 1, 1, ["A"], ["P"], ["A|P"], []⟩

def c4row : BaseAggregate :=
  ⟨"CW", "40m", "K", 2, 1, 1, 1, ["A"], ["P"], ["A|P"], []⟩

/-- An all-blank spot used as a template for concrete inputs. -/
def blankSpot : NormalizedSpot :=
  { ts := "", spotId := 0, activator := "", reference := "", freq := 0, mode := "",
    band := "", source := "", entity := "", grid := "", lat := 0, lon := 0,
    name := "", spotter := "", state := none }

/-- A spot with empty entity but a `'|'` inside its band. -/
def c10spot : NormalizedSpot :=
  { blankSpot with
    mode := "m", band := "b|c", entity := "", activator := "A", reference := "P" }

/-! ## Deduplication by spotId (C5) -/

def intMapLookup (k : Int) : List (Int × NormalizedSpot) → Option NormalizedSpot
  | [] => none
  | (k', v) :: rest => if k' = k then some v else intMapLookup k rest

/-- The inner fold of `aggregateHour`'s dedup: write every spot into
the map keyed by its `spotId`. -/
def spotFoldMap (m : List (Int × NormalizedSpot)) (spots : List NormalizedSpot) :
    List (Int × NormalizedSpot) :=
  spots.foldl (fun acc s => intMapSet acc s.spotId s) m

def c5spotA : NormalizedSpot := { blankSpot with spotId := 1, activator := "W0A" }

def c5spotB : NormalizedSpot := { blankSpot with spotId := 1, activator := "W0B" }

/-! ## Publication pipeline model (C7, C8, C9)

The object store is abstracted into an environment of outcomes: the
listing result, a per-key read result, and success flags for the three
puts (rollup file, meta sidecar, manifest). The SHA-256 hash and the
JSON row serializer are abstract function parameters — the claims about
them (determinism, key construction) do not depend on their
definitions. `writes` records the keys of attempted puts. -/

inductive AggErrType where
  | LIST_ERROR
  | READ_ERROR
  | PARSE_ERROR
  | STORAGE_ERROR
deriving DecidableEq, Repr

structure AggError where
  type : AggErrType
  message : String
deriving DecidableEq, Repr

/-- NDJSON body: serialized rows joined by LF, no trailing newline. -/
def ndjsonOf {γ : Type} (serialize : γ → String) (aggregates : List γ) : String :=
  String.intercalate "\n" (aggregates.map serialize)

/-- JS `key.lastIndexOf('.')` as an optional index. -/
def lastDotIdx (key : String) : Option Nat :=
  match key.data.reverse.findIdx? (fun c => decide (c = '.')) with
  | none => none
  | some i => some (key.data.length - 1 - i)

/-- `addHashToFilename`: insert `-<hash>` before the final dot, or
append it when the key has no dot. -/
def addHashToFilename (key hash : String) : String :=
  match lastDotIdx key with
  | none => key ++ "-" ++ hash
  | some i =>
    String.mk (key.data.take i) ++ "-" ++ hash ++ String.mk (key.data.drop i)

structure HourlySummary where
  hour : String
  generated_at : String
  total_spots : Nat
  total_activations : Nat
  total_unique_activators : Nat
  total_unique_parks : Nat
  files_processed : Nat
  aggregates : List HourlyAggregate
deriving DecidableEq, Repr

structure HourEnv where
  listResult : Except String (List String)
  readResult : String → Except String (List NormalizedSpot)
  rollupPutOk : Bool
  metaPutOk : Bool
  manifestOk : Bool
  now : String

structure HourRun where
  result : Except AggError HourlySummary
  ndjson : Option String
  contentHash : Option String
  storedKey : Option String
  writes : List String

/-- JS `new Set(l).size` for a list of strings. -/
def distinctSize (l : List String) : Nat :=
  (l.foldl listInsert []).length

/-- Model of `aggregateHour`: list the hour's raw prefix, dedup spots by
id across the successfully read captures, aggregate, publish, then
attempt meta and manifest writes whose outcomes never affect the
result. -/
def aggregateHourModel (hashFn : String → String)
    (serialize : HourlyAggregate → String) (env : HourEnv)
    (hourPath hourTimestamp : String) : HourRun :=
  match env.listResult with
  | .error msg => ⟨.error ⟨.LIST_ERROR, msg⟩, none, none, none, []⟩
  | .ok fileKeys =>
    if fileKeys.isEmpty then
      ⟨.ok { hour := hourTimestamp, generated_at := env.now, total_spots := 0,
             total_activations := 0, total_unique_activators := 0,
             total_unique_parks := 0, files_processed := 0, aggregates := [] },
        none, none, none, []⟩
    else
      let uniqueSpots := collectSpots (fileKeys.map env.readResult)
      let aggregates := aggregateSpotsToHourly uniqueSpots hourTimestamp
      let nd := ndjsonOf serialize aggregates
      let hsh := hashFn nd
      let hashedKey := addHashToFilename ("hourly/" ++ hourPath ++ ".ndjson") hsh
      let summary : HourlySummary :=
        { hour := hourTimestamp
          generated_at := env.now
          total_spots := uniqueSpots.length
          total_activations :=
            distinctSize (uniqueSpots.map (fun s => s.activator ++ "|" ++ s.reference))
          total_unique_activators := distinctSize (uniqueSpots.map (fun s => s.activator))
          total_unique_parks := distinctSize (uniqueSpots.map (fun s => s.reference))
          files_processed := fileKeys.length
          aggregates := aggregates }
      if env.rollupPutOk then
        ⟨.ok summary, some nd, some hsh, some hashedKey,
          [hashedKey, "hourly/" ++ hourPath ++ ".meta.json", "manifest.json"]⟩
      else
        ⟨.error ⟨.STORAGE_ERROR, "put failed"⟩, some nd, some hsh, some hashedKey,
          [hashedKey]⟩

structure RollupSummary where
  timeValue : String
  generated_at : String
  total_spots : Nat
  total_activations : Nat
  total_unique_activators : Nat
  total_unique_parks : Nat
  files_processed : Nat
  aggregates : List BaseAggregate
deriving DecidableEq, Repr

structure RollupEnv where
  listResult : Except String (List String)
  readResult : String → Except String (List BaseAggregate)
  rollupPutOk : Bool
  metaPutOk : Bool
  manifestOk : Bool
  now : String

structure RollupRun where
  result : Except AggError RollupSummary
  ndjson : Option String
  contentHash : Option String
  storedKey : Option String
  writes : List String

/-- The row lists of the child reads that succeeded. -/
def okAggLists (rs : List (Except String (List BaseAggregate))) :
    List (List BaseAggregate) :=
  rs.foldr (fun r acc => match r with | .error _ => acc | .ok aggs => aggs :: acc) []

/-- Model of `aggregateDay`/`aggregateMonth` (identical logic, different
prefixes and caps): list the child layer, merge the successfully read
rows by composite key, publish, attempt meta and manifest writes. -/
def rollupModel (hashFn : String → String) (serialize : BaseAggregate → String)
    (env : RollupEnv) (level path timeValue : String) : RollupRun :=
  match env.listResult with
  | .error msg => ⟨.error ⟨.LIST_ERROR, msg⟩, none, none, none, []⟩
  | .ok fileKeys =>
    if fileKeys.isEmpty then
      ⟨.ok { timeValue := timeValue, generated_at := env.now, total_spots := 0,
             total_activations := 0, total_unique_activators := 0,
             total_unique_parks := 0, files_processed := 0, aggregates := [] },
        none, none, none, []⟩
    else
      let children := (okAggLists (fileKeys.map env.readResult)).flatten
      let groups := mergeAggregatesIntoGroups children []
      let aggregates := groupsToAggregates groups
      let nd := ndjsonOf serialize aggregates
      let hsh := hashFn nd
      let hashedKey := addHashToFilename (level ++ "/" ++ path ++ ".ndjson") hsh
      let summary : RollupSummary :=
        { timeValue := timeValue
          generated_at := env.now
          total_spots := (children.map (fun a => a.spot_count)).sum
          total_activations :=
            ((groups.map Prod.snd).foldl (fun acc g => insertAll acc g.activations)
              []).length
          total_unique_activators :=
            ((groups.map Prod.snd).foldl (fun acc g => insertAll acc g.activators)
              []).length
          total_unique_parks :=
            ((groups.map Prod.snd).foldl (fun acc g => insertAll acc g.parks)
              []).length
          files_processed := fileKeys.length
          aggregates := aggregates }
      if env.rollupPutOk then
        ⟨.ok summary, some nd, some hsh, some hashedKey,
          [hashedKey, level ++ "/" ++ path ++ ".meta.json", "manifest.json"]⟩
      else
        ⟨.error ⟨.STORAGE_ERROR, "put failed"⟩, some nd, some hsh, some hashedKey,
          [hashedKey]⟩

/-- `aggregateDay`: the rollup algorithm over `hourly/` into `daily/`. -/
def aggregateDayModel (hashFn : String → String)
    (serialize : BaseAggregate → String) (env : RollupEnv)
    (dayPath dayTimestamp : String) : RollupRun :=
  rollupModel hashFn serialize env "daily" dayPath dayTimestamp

/-- `aggregateMonth`: the rollup algorithm over `daily/` into `monthly/`. -/
def aggregateMonthModel (hashFn : String → String)
    (serialize : BaseAggregate → String) (env : RollupEnv)
    (monthPath monthTimestamp : String) : RollupRun :=
  rollupModel hashFn serialize env "monthly" monthPath monthTimestamp

def exceptIsOk {ε α : Type} : Except ε α → Bool
  | .ok _ => true
  | .error _ => false

/-! ## Manifest model (C6)

`updateManifest` is load-modify-store; we model the in-memory
modification on the normalized manifest. JS's stable `Array.sort` with
comparator `(a, b) => b.ts.localeCompare(a.ts)` is modelled by a stable
insertion sort under the codepoint order on strings (which coincides
with localeCompare on the ASCII timestamps the pipeline produces). -/

structure ManifestEntry where
  ts : String
  path : String
  total_spots : Nat
  total_activations : Nat
deriving DecidableEq, Repr

structure Manifest where
  hourly : List ManifestEntry
  daily : List ManifestEntry
  monthly : List ManifestEntry
deriving DecidableEq, Repr

inductive ManifestLevel where
  | hourly
  | daily
  | monthly
deriving DecidableEq, Repr

/-- The caps the three call sites pass: 720 / 90 / 24. -/
def levelCap : ManifestLevel → Nat
  | .hourly => 720
  | .daily => 90
  | .monthly => 24

/-- Descending comparison on the timestamp field. -/
def manifestDescLE (a b : ManifestEntry) : Prop := b.ts ≤ a.ts

instance : DecidableRel manifestDescLE := fun a b => by
  unfold manifestDescLE; infer_instance

instance : IsTotal ManifestEntry manifestDescLE :=
  ⟨fun a b => (le_total a.ts b.ts).symm.imp id id⟩

instance : IsTrans ManifestEntry manifestDescLE :=
  ⟨fun _ _ _ hab hbc => le_trans hbc hab⟩

/-- JS `entries.findIndex(x => x.ts === t)` as an optional index. -/
def findTsIdx (t : String) : List ManifestEntry → Option Nat
  | [] => none
  | x :: xs => if x.ts = t then some 0 else (findTsIdx t xs).map (· + 1)

/-- Replace the first entry with the same timestamp or append, then
sort descending (stable) and truncate to the cap. -/
def updateLevelList (entries : List ManifestEntry) (e : ManifestEntry)
    (maxEntries : Nat) : List ManifestEntry :=
  let replaced :=
    match findTsIdx e.ts entries with
    | some i => entries.set i e
    | none => entries ++ [e]
  (List.insertionSort manifestDescLE replaced).take maxEntries

/-- `updateManifest` on the loaded manifest: only the addressed level is
modified; the other two are written back as loaded. -/
def updateManifest (m : Manifest) (level : ManifestLevel)
    (timeValue path : String) (totalSpots totalActivations : Nat)
    (maxEntries : Nat) : Manifest :=
  let e : ManifestEntry := ⟨timeValue, path, totalSpots, totalActivations⟩
  match level with
  | .hourly => { m with hourly := updateLevelList m.hourly e maxEntries }
  | .daily => { m with daily := updateLevelList m.daily e maxEntries }
  | .monthly => { m with monthly := updateLevelList m.monthly e maxEntries }

structure ManifestCmd where
  level : ManifestLevel
  timeValue : String
  path : String
  totalSpots : Nat
  totalActivations : Nat
deriving DecidableEq, Repr

/-- A sequence of `updateManifest` calls as the aggregation jobs issue
them (each level with its own cap). -/
def applyCmds (m : Manifest) (cmds : List ManifestCmd) : Manifest :=
  cmds.foldl (fun acc c =>
    updateManifest acc c.level c.timeValue c.path c.totalSpots c.totalActivations
      (levelCap c.level)) m

/-- Per-level invariant: strictly descending timestamps (hence no
duplicates), at most `cap` entries, every path present in the store. -/
def levelInv (l : List ManifestEntry) (cap : Nat) (store : List String) : Prop :=
  l.Pairwise (fun a b => b.ts < a.ts) ∧ l.length ≤ cap ∧ ∀ e ∈ l, e.path ∈ store

def manifestInv (m : Manifest) (store : List String) : Prop :=
  levelInv m.hourly 720 store ∧ levelInv m.daily 90 store ∧
    levelInv m.monthly 24 store

/-- The manifest the C6 counterexample starts from: loadable, but with
two hourly entries sharing a timestamp. -/
def c6m0 : Manifest := ⟨[⟨"a", "p", 0, 0⟩, ⟨"a", "q", 0, 0⟩], [], []⟩

/-! ## Aggregate algebra (C1)

Comparing the direct hourly aggregation of a spot set with the merge of
the aggregates of a partition. Comparison is metric-by-metric with
set-valued fields compared as sets, as the spec demands. -/

def hourlyBase (rows : List HourlyAggregate) : List BaseAggregate :=
  rows.map (fun r => r.toBaseAggregate)

def tripleOf (a : BaseAggregate) : String × String × String :=
  (a.mode, a.band, a.entity)

/-- Rebuild the composite key from a triple. -/
def keyOfTriple (t : String × String × String) : String :=
  t.1 ++ "|" ++ t.2.1 ++ "|" ++ t.2.2

/-- View a spot group as an aggregate group (`spot_count` is the number
of accumulated spots). -/
def sg2ag (g : SpotGroup) : AggregateGroup :=
  ⟨g.spots.length, g.activators, g.parks, g.activations, g.stateActivators⟩

/-- The row `groupsToAggregates` builds for a triple and its group. -/
def mkRowB (t : String × String × String) (g : AggregateGroup) : BaseAggregate :=
  { mode := t.1
    band := t.2.1
    entity := t.2.2
    spot_count := g.spotCount
    activation_count := g.activations.length
    unique_activators := g.activators.length
    unique_parks := g.parks.length
    activators := g.activators
    parks := g.parks
    activations := g.activations
    state_activators := g.stateActivators }

def sameStringSet (l1 l2 : List String) : Prop := ∀ x, x ∈ l1 ↔ x ∈ l2

/-- Metric-by-metric equality of two rows: counts equal, set-valued
fields equal as sets. -/
def aggEquiv (a b : BaseAggregate) : Prop :=
  a.spot_count = b.spot_count ∧ a.activation_count = b.activation_count ∧
  a.unique_activators = b.unique_activators ∧ a.unique_parks = b.unique_parks ∧
  sameStringSet a.activators b.activators ∧ sameStringSet a.parks b.parks ∧
  sameStringSet a.activations b.activations ∧
  sameStringSet a.state_activators b.state_activators

/-- Two row lists carry the same aggregate: both key their rows by
distinct `(mode, band, entity)` triples, the same triples occur, and
rows with the same triple agree metric-by-metric. -/
def aggRowsEquiv (A B : List BaseAggregate) : Prop :=
  (A.map tripleOf).Nodup ∧ (B.map tripleOf).Nodup ∧
  (∀ t, (∃ r ∈ A, tripleOf r = t) ↔ (∃ r ∈ B, tripleOf r = t)) ∧
  (∀ rA ∈ A, ∀ rB ∈ B, tripleOf rA = tripleOf rB → aggEquiv rA rB)

def groupEquiv (g h : AggregateGroup) : Prop :=
  g.spotCount = h.spotCount ∧ sameStringSet g.activators h.activators ∧
  sameStringSet g.parks h.parks ∧ sameStringSet g.activations h.activations ∧
  sameStringSet g.stateActivators h.stateActivators

def groupEquivOpt : Option AggregateGroup → Option AggregateGroup → Prop
  | none, none => True
  | some g, some h => groupEquiv g h
  | _, _ => False

/-- Duplicate-freedom of a group's four set lists. -/
def agNodup (g : AggregateGroup) : Prop :=
  g.activators.Nodup ∧ g.parks.Nodup ∧ g.activations.Nodup ∧
    g.stateActivators.Nodup

/-- The flattened child rows of a partition. -/
def partsRows (hour : String) (parts : List (List NormalizedSpot)) :
    List BaseAggregate :=
  (parts.map (fun Si => hourlyBase (aggregateSpotsToHourly Si hour))).flatten

/-- A spot whose mode contains the separator `'|'`. -/
def c1spotA : NormalizedSpot :=
  { blankSpot with
    mode := "a|b", band := "c", entity := "e",
    activator := "X1", reference := "R1" }

/-- A `'|'`-free spot whose triple collides with `c1spotA`'s key prefix. -/
def c1spotB : NormalizedSpot :=
  { blankSpot with
    mode := "a", band := "b", entity := "c",
    activator := "X2", reference := "R2" }

def c1w1 : NormalizedSpot :=
  { blankSpot with
    mode := "cw", band := "40m", entity := "K",
    activator := "A1", reference := "K-0001" }

def c1w2 : NormalizedSpot :=
  { blankSpot with
    mode := "ssb", band := "20m", entity := "VE",
    activator := "A2", reference := "VE-0002" }

theorem splitOnChar_ne_nil (c : Char) (l : List Char) : splitOnChar c l ≠ [] := by
  induction l with
  | nil => simp [splitOnChar]
  | cons x xs ih =>
    simp only [splitOnChar]
    split
    · simp
    · split
      · simp
      · simp

theorem splitOnChar_no_sep (c : Char) (l : List Char) (h : c ∉ l) :
    splitOnChar c l = [l] := by
  induction l with
  | nil => rfl
  | cons x xs ih =>
    simp only [List.mem_cons, not_or] at h
    simp only [splitOnChar]
    rw [if_neg (fun hx => h.1 hx.symm), ih h.2]

theorem splitOnChar_append_sep (c : Char) (l rest : List Char) (h : c ∉ l) :
    splitOnChar c (l ++ c :: rest) = l :: splitOnChar c rest := by
  induction l with
  | nil => simp [splitOnChar]
  | cons x xs ih =>
    simp only [List.mem_cons, not_or] at h
    have hxc : ¬(x = c) := fun hx => h.1 hx.symm
    simp only [List.cons_append, splitOnChar, List.append_eq]
    rw [if_neg hxc, ih h.2]

@[simp]
theorem mem_listInsert (l : List String) (a b : String) :
    b ∈ listInsert l a ↔ b = a ∨ b ∈ l := by
  unfold listInsert
  split
  · rename_i h
    constructor
    · exact fun hb => Or.inr hb
    · rintro (rfl | hb)
      · exact h
      · exact hb
  · simp [or_comm]

theorem nodup_listInsert (l : List String) (a : String) (h : l.Nodup) :
    (listInsert l a).Nodup := by
  unfold listInsert
  split
  · exact h
  · rename_i hna
    simpa using List.Nodup.append h (List.nodup_singleton a) (by simpa using fun hb => hna hb)

theorem length_listInsert_le (l : List String) (a : String) :
    (listInsert l a).length ≤ l.length + 1 := by
  unfold listInsert
  split
  · omega
  · simp

@[simp]
theorem mem_insertAll (l xs : List String) (b : String) :
    b ∈ insertAll l xs ↔ b ∈ l ∨ b ∈ xs := by
  induction xs generalizing l with
  | nil => simp [insertAll]
  | cons x xs ih =>
    simp only [insertAll, List.foldl_cons] at *
    rw [ih (listInsert l x)]
    simp only [mem_listInsert, List.mem_cons]
    tauto

theorem nodup_insertAll (l xs : List String) (h : l.Nodup) :
    (insertAll l xs).Nodup := by
  induction xs generalizing l with
  | nil => exact h
  | cons x xs ih => exact ih _ (nodup_listInsert l x h)

/-! ## Lemmas about the band lookup and entity extraction -/

theorem splitOnChar_head (c : Char) (l : List Char) :
    (splitOnChar c l).head? = some (l.takeWhile (fun x => x ≠ c)) := by
  induction l with
  | nil => simp [splitOnChar]
  | cons x xs ih =>
    simp only [splitOnChar]
    by_cases hx : x = c
    · subst hx
      simp [List.takeWhile]
    · rw [if_neg hx]
      cases hr : splitOnChar c xs with
      | nil => exact absurd hr (splitOnChar_ne_nil c xs)
      | cons h t =>
        rw [hr] at ih
        simp only [List.head?, Option.some.injEq] at ih
        simp [List.takeWhile, hx, ih]

theorem bandLookup_not_mem (m : ℚ) (l : List (ℚ × ℚ × String))
    (h : ∀ r ∈ l, ¬(r.1 ≤ m ∧ m ≤ r.2.1)) : bandLookup m l = "other" := by
  induction l with
  | nil => rfl
  | cons r rest ih =>
    obtain ⟨lo, hi, b⟩ := r
    simp only [bandLookup]
    rw [if_neg (h (lo, hi, b) (List.mem_cons_self _ _))]
    exact ih (fun s hs => h s (List.mem_cons_of_mem _ hs))

theorem bandLookup_mem (m : ℚ) (l : List (ℚ × ℚ × String))
    (hdis : ∀ a ∈ l, ∀ b ∈ l, a ≠ b → (a.2.1 < b.1 ∨ b.2.1 < a.1))
    (r : ℚ × ℚ × String) (hr : r ∈ l) (h1 : r.1 ≤ m) (h2 : m ≤ r.2.1) :
    bandLookup m l = r.2.2 := by
  induction l with
  | nil => cases hr
  | cons s rest ih =>
    obtain ⟨lo, hi, b⟩ := s
    by_cases hrs : r = (lo, hi, b)
    · subst hrs
      simp only [bandLookup]
      rw [if_pos ⟨h1, h2⟩]
    · have hmem : r ∈ rest := by
        rcases List.mem_cons.mp hr with h | h
        · exact absurd h hrs
        · exact h
      have hd := hdis (lo, hi, b) (List.mem_cons_self _ _) r
        (List.mem_cons_of_mem _ hmem) (fun he => hrs he.symm)
      simp only [bandLookup]
      rw [if_neg (by rintro ⟨ha, hb⟩; rcases hd with hd | hd <;> simp at hd <;> linarith)]
      exact ih (fun a ha b hb hne =>
        hdis a (List.mem_cons_of_mem _ ha) b (List.mem_cons_of_mem _ hb) hne) hmem

theorem freqToBand_val (q : ℚ) : freqToBand (.val q) = specBand (q / 1000) := by
  simp only [freqToBand, specBand, bandTable, bandLookup, JSNum.div1000,
    JSNum.jge, JSNum.jle, Bool.and_eq_true, decide_eq_true_eq]

set_option maxHeartbeats 1000000 in
theorem bandTable_disjoint :
    ∀ a ∈ bandTable, ∀ b ∈ bandTable, a ≠ b → (a.2.1 < b.1 ∨ b.2.1 < a.1) := by
  intro a ha b hb hne
  fin_cases ha <;> fin_cases hb <;> simp_all <;> norm_num

theorem bandTable_pos : ∀ r ∈ bandTable, 0 < r.1 := by
  intro r hr
  fin_cases hr <;> norm_num

theorem bandTable_wf : ∀ r ∈ bandTable, r.1 ≤ r.2.1 := by
  intro r hr
  fin_cases hr <;> norm_num

/-- C2: `freqToBand` agrees with the §4.1 table: NaN maps to `other`,
every frequency is classified by first-matching-row lookup over the
table, a frequency inside some row's inclusive range gets that row's
band, frequencies outside all rows (including negatives) get `other`,
the containing row is unique, and both kHz boundary values of every row
map to that row's band. -/
theorem C2_freqToBand_matches_table :
    freqToBand .nan = "other" ∧
    (∀ q : ℚ, freqToBand (.val q) = specBand (q / 1000)) ∧
    (∀ (q : ℚ) (r : ℚ × ℚ × String), r ∈ bandTable →
      r.1 ≤ q / 1000 → q / 1000 ≤ r.2.1 → freqToBand (.val q) = r.2.2) ∧
    (∀ q : ℚ, (∀ r ∈ bandTable, ¬(r.1 ≤ q / 1000 ∧ q / 1000 ≤ r.2.1)) →
      freqToBand (.val q) = "other") ∧
    (∀ (m : ℚ) (r s : ℚ × ℚ × String), r ∈ bandTable → s ∈ bandTable →
      r.1 ≤ m → m ≤ r.2.1 → s.1 ≤ m → m ≤ s.2.1 → r = s) ∧
    (∀ q : ℚ, q < 0 → freqToBand (.val q) = "other") ∧
    (∀ r ∈ bandTable, freqToBand (.val (1000 * r.1)) = r.2.2 ∧
      freqToBand (.val (1000 * r.2.1)) = r.2.2) := by
  have hmem : ∀ (q : ℚ) (r : ℚ × ℚ × String), r ∈ bandTable →
      r.1 ≤ q / 1000 → q / 1000 ≤ r.2.1 → freqToBand (.val q) = r.2.2 := by
    intro q r hr h1 h2
    rw [freqToBand_val]
    exact bandLookup_mem (q / 1000) bandTable bandTable_disjoint r hr h1 h2
  refine ⟨rfl, freqToBand_val, hmem, ?_, ?_, ?_, ?_⟩
  · intro q h
    rw [freqToBand_val]
    exact bandLookup_not_mem (q / 1000) bandTable h
  · intro m r s hr hs h1 h2 h3 h4
    by_contra hne
    rcases bandTable_disjoint r hr s hs hne with hd | hd <;> linarith
  · intro q hq
    rw [freqToBand_val]
    refine bandLookup_not_mem (q / 1000) bandTable ?_
    rintro r hr ⟨h1, h2⟩
    have h0 := bandTable_pos r hr
    have hneg : q / 1000 < 0 := div_neg_of_neg_of_pos hq (by norm_num)
    linarith
  · intro r hr
    constructor
    · refine hmem (1000 * r.1) r hr (le_of_eq ?_) ?_
      · field_simp
      · rw [mul_comm, mul_div_assoc]
        norm_num
        exact bandTable_wf r hr
    · refine hmem (1000 * r.2.1) r hr ?_ (le_of_eq ?_)
      · rw [mul_comm, mul_div_assoc]
        norm_num
        exact bandTable_wf r hr
      · field_simp

/-- C2 witness: the theorem applied at the concrete frequency 7137 kHz
(inside the 40 m row). -/
theorem C2_freqToBand_matches_table_witness : freqToBand (.val 7137) = "40m" :=
  C2_freqToBand_matches_table.2.2.1 7137 (7.0, 7.3, "40m")
    (by simp [bandTable]) (by norm_num) (by norm_num)

/-- C3 counterexample: on the empty reference the code returns `""`
(JS `"".split('-')` is `[""]`), not `"unknown"` as the claim states —
the repository's own unit test asserts `extractEntity('') === ''`. -/
theorem C3_counterexample : extractEntity "" = "" ∧ extractEntity "" ≠ "unknown" := by
  constructor <;> decide

/-- C3 (amended): `extractEntity` returns the prefix of the reference
before the first `'-'` for every reference, including the empty one —
so `extractEntity "" = ""`; the `"unknown"` fallback is unreachable. -/
theorem C3_extractEntity_prefix :
    (∀ r : String, extractEntity r = entityBeforeDash r) ∧
    extractEntity "K-1234" = "K" ∧ extractEntity "US-PA-1234" = "US" ∧
    extractEntity "" = "" := by
  refine ⟨?_, by decide, by decide, by decide⟩
  intro r
  unfold extractEntity entityBeforeDash jsSplit
  have h := splitOnChar_head '-' r.data
  cases hs : splitOnChar '-' r.data with
  | nil => exact absurd hs (splitOnChar_ne_nil '-' r.data)
  | cons p t =>
    rw [hs] at h
    simp only [List.head?, Option.some.injEq] at h
    simp [h]

/-! ## Association map lemmas -/

theorem mapLookup_mapUpd_self {α : Type} (k : String) (f : Option α → α)
    (m : List (String × α)) :
    mapLookup k (mapUpd k f m) = some (f (mapLookup k m)) := by
  induction m with
  | nil => simp [mapUpd, mapLookup]
  | cons p rest ih =>
    obtain ⟨k', v⟩ := p
    by_cases h : k' = k
    · subst h
      simp [mapUpd, mapLookup]
    · simp only [mapUpd, mapLookup, if_neg h]
      exact ih

theorem mapLookup_mapUpd_ne {α : Type} (k k' : String) (f : Option α → α)
    (m : List (String × α)) (h : k' ≠ k) :
    mapLookup k' (mapUpd k f m) = mapLookup k' m := by
  induction m with
  | nil =>
    simp only [mapUpd, mapLookup]
    rw [if_neg (fun he => h he.symm)]
  | cons p rest ih =>
    obtain ⟨k'', v⟩ := p
    by_cases hk : k'' = k
    · subst hk
      simp only [mapUpd, if_pos rfl, mapLookup]
      rw [if_neg (fun he => h he.symm), if_neg (fun he => h he.symm)]
    · simp only [mapUpd, if_neg hk, mapLookup]
      by_cases hk2 : k'' = k'
      · rw [if_pos hk2, if_pos hk2]
      · rw [if_neg hk2, if_neg hk2, ih]

theorem mapLookup_mem {α : Type} (k : String) (v : α) (m : List (String × α))
    (h : mapLookup k m = some v) : v ∈ m.map Prod.snd := by
  induction m with
  | nil => simp [mapLookup] at h
  | cons p rest ih =>
    obtain ⟨k', v'⟩ := p
    simp only [mapLookup] at h
    by_cases hk : k' = k
    · rw [if_pos hk] at h
      injection h with hv
      simp [hv]
    · rw [if_neg hk] at h
      simp [ih h]

theorem mem_values_mapUpd {α : Type} (k : String) (f : Option α → α)
    (m : List (String × α)) (v : α) (h : v ∈ (mapUpd k f m).map Prod.snd) :
    v = f (mapLookup k m) ∨ v ∈ m.map Prod.snd := by
  induction m with
  | nil =>
    simp only [mapUpd, List.map_cons, List.map_nil, List.mem_cons,
      List.not_mem_nil, or_false] at h
    left
    simpa [mapLookup] using h
  | cons p rest ih =>
    obtain ⟨k', v'⟩ := p
    by_cases hk : k' = k
    · subst hk
      rw [show mapUpd k' f ((k', v') :: rest) = (k', f (some v')) :: rest from by
        simp [mapUpd]] at h
      rw [show mapLookup k' ((k', v') :: rest) = some v' from by simp [mapLookup]]
      simp only [List.map_cons, List.mem_cons] at h ⊢
      rcases h with h | h
      · exact Or.inl h
      · exact Or.inr (Or.inr h)
    · rw [show mapUpd k f ((k', v') :: rest) = (k', v') :: mapUpd k f rest from by
        simp [mapUpd, hk]] at h
      rw [show mapLookup k ((k', v') :: rest) = mapLookup k rest from by
        simp [mapLookup, hk]]
      simp only [List.map_cons, List.mem_cons] at h ⊢
      rcases h with h | h
      · exact Or.inr (Or.inl h)
      · rcases ih h with h' | h'
        · exact Or.inl h'
        · exact Or.inr (Or.inr h')

theorem keys_mapUpd {α : Type} (k : String) (f : Option α → α)
    (m : List (String × α)) :
    (mapUpd k f m).map Prod.fst =
      if k ∈ m.map Prod.fst then m.map Prod.fst else m.map Prod.fst ++ [k] := by
  induction m with
  | nil => simp [mapUpd]
  | cons p rest ih =>
    obtain ⟨k', v⟩ := p
    by_cases hk : k' = k
    · subst hk
      simp [mapUpd]
    · simp only [mapUpd, if_neg hk, List.map_cons, ih]
      by_cases hmem : k ∈ rest.map Prod.fst
      · rw [if_pos hmem,
          if_pos (show k ∈ k' :: rest.map Prod.fst from List.mem_cons_of_mem _ hmem)]
      · rw [if_neg hmem, if_neg (show k ∉ k' :: rest.map Prod.fst from by
          simp only [List.mem_cons, not_or]
          exact ⟨fun h => hk h.symm, hmem⟩)]
        simp

theorem nodup_keys_mapUpd {α : Type} (k : String) (f : Option α → α)
    (m : List (String × α)) (h : (m.map Prod.fst).Nodup) :
    ((mapUpd k f m).map Prod.fst).Nodup := by
  rw [keys_mapUpd]
  split
  · exact h
  · rename_i hmem
    simpa using List.Nodup.append h (List.nodup_singleton k)
      (by simpa using fun hb => hmem hb)

theorem mem_iff_mapLookup {α : Type} (k : String) (v : α) (m : List (String × α))
    (h : (m.map Prod.fst).Nodup) : (k, v) ∈ m ↔ mapLookup k m = some v := by
  induction m with
  | nil => simp [mapLookup]
  | cons p rest ih =>
    obtain ⟨k', v'⟩ := p
    simp only [List.map_cons, List.nodup_cons] at h
    simp only [List.mem_cons, mapLookup, Prod.mk.injEq]
    by_cases hk : k' = k
    · subst hk
      rw [if_pos rfl]
      constructor
      · rintro (⟨-, rfl⟩ | hmem)
        · rfl
        · exact absurd (List.mem_map_of_mem Prod.fst hmem) h.1
      · intro hv
        injection hv with hv
        exact Or.inl ⟨rfl, hv.symm⟩
    · rw [if_neg hk, ← ih h.2]
      constructor
      · rintro (⟨he, -⟩ | hmem)
        · exact absurd he.symm hk
        · exact hmem
      · exact fun hmem => Or.inr hmem

theorem lookup_foldGroups {β α : Type} (keyOf : β → String) (init : α)
    (step : α → β → α) (xs : List β) (m : List (String × α)) (k : String) :
    mapLookup k (foldGroups keyOf init step m xs) =
      match mapLookup k m, keyFilter keyOf k xs with
      | some g, bs => some (bs.foldl step g)
      | none, [] => none
      | none, b :: bs => some ((b :: bs).foldl step init) := by
  induction xs generalizing m with
  | nil =>
    cases h : mapLookup k m <;> simp [foldGroups, keyFilter, h]
  | cons b xs ih =>
    have hone : foldGroups keyOf init step m (b :: xs) =
        foldGroups keyOf init step
          (mapUpd (keyOf b) (fun g => step (g.getD init) b) m) xs := rfl
    rw [hone, ih]
    by_cases hk : keyOf b = k
    · subst hk
      rw [mapLookup_mapUpd_self]
      have hfc : keyFilter keyOf (keyOf b) (b :: xs) =
          b :: keyFilter keyOf (keyOf b) xs := by
        simp [keyFilter, List.filter_cons]
      rw [hfc]
      cases h : mapLookup (keyOf b) m with
      | some g => simp
      | none => simp
    · rw [mapLookup_mapUpd_ne _ _ _ _ (fun he => hk he.symm)]
      have hfc : keyFilter keyOf k (b :: xs) = keyFilter keyOf k xs := by
        simp [keyFilter, List.filter_cons, hk]
      rw [hfc]

theorem nodup_keys_foldGroups {β α : Type} (keyOf : β → String) (init : α)
    (step : α → β → α) (xs : List β) (m : List (String × α))
    (h : (m.map Prod.fst).Nodup) :
    ((foldGroups keyOf init step m xs).map Prod.fst).Nodup := by
  induction xs generalizing m with
  | nil => exact h
  | cons b xs ih => exact ih _ (nodup_keys_mapUpd _ _ _ h)

theorem values_foldGroups {β α : Type} (keyOf : β → String) (init : α)
    (step : α → β → α) (xs : List β) (m : List (String × α)) {P : α → Prop}
    (hinit : P init) (hstep : ∀ g b, b ∈ xs → P g → P (step g b))
    (hm : ∀ v ∈ m.map Prod.snd, P v) :
    ∀ v ∈ (foldGroups keyOf init step m xs).map Prod.snd, P v := by
  induction xs generalizing m with
  | nil => exact hm
  | cons b xs ih =>
    refine ih _ (fun g b' hb' hg => hstep g b' (List.mem_cons_of_mem _ hb') hg) ?_
    intro v hv
    rcases mem_values_mapUpd _ _ _ _ hv with h | h
    · subst h
      refine hstep _ b (List.mem_cons_self _ _) ?_
      cases hl : mapLookup (keyOf b) m with
      | none => simpa [hl] using hinit
      | some g => simpa [hl] using hm g (mapLookup_mem _ _ _ hl)
    · exact hm v h

/-! ## Characterizations of the group-accumulation folds -/

theorem length_insertAll_le (l xs : List String) (h : l.Nodup) :
    (insertAll l xs).length ≤ l.length + xs.dedup.length := by
  have hnd := nodup_insertAll l xs h
  have hset : (insertAll l xs).toFinset = l.toFinset ∪ xs.toFinset := by
    ext a
    simp [mem_insertAll]
  calc (insertAll l xs).length = (insertAll l xs).toFinset.card :=
        (List.toFinset_card_of_nodup hnd).symm
    _ = (l.toFinset ∪ xs.toFinset).card := by rw [hset]
    _ ≤ l.toFinset.card + xs.toFinset.card := Finset.card_union_le _ _
    _ ≤ l.length + xs.dedup.length := by
        rw [List.toFinset_card_of_nodup h, List.card_toFinset]

theorem spotFold_spots (l : List NormalizedSpot) (g : SpotGroup) :
    (l.foldl addSpotToGroup g).spots = g.spots ++ l := by
  induction l generalizing g with
  | nil => simp
  | cons s l ih => simp [ih, addSpotToGroup]

theorem spotFold_mem_activators (l : List NormalizedSpot) (g : SpotGroup) (x : String) :
    x ∈ (l.foldl addSpotToGroup g).activators ↔
      x ∈ g.activators ∨ ∃ s ∈ l, x = s.activator := by
  induction l generalizing g with
  | nil => simp
  | cons s l ih =>
    rw [List.foldl_cons, ih]
    simp only [addSpotToGroup, mem_listInsert, List.mem_cons]
    constructor
    · rintro ((h | h) | ⟨s', hs', h⟩)
      · exact Or.inr ⟨s, Or.inl rfl, h⟩
      · exact Or.inl h
      · exact Or.inr ⟨s', Or.inr hs', h⟩
    · rintro (h | ⟨s', hs' | hs', h⟩)
      · exact Or.inl (Or.inr h)
      · subst hs'
        exact Or.inl (Or.inl h)
      · exact Or.inr ⟨s', hs', h⟩

theorem spotFold_mem_parks (l : List NormalizedSpot) (g : SpotGroup) (x : String) :
    x ∈ (l.foldl addSpotToGroup g).parks ↔
      x ∈ g.parks ∨ ∃ s ∈ l, x = s.reference := by
  induction l generalizing g with
  | nil => simp
  | cons s l ih =>
    rw [List.foldl_cons, ih]
    simp only [addSpotToGroup, mem_listInsert, List.mem_cons]
    constructor
    · rintro ((h | h) | ⟨s', hs', h⟩)
      · exact Or.inr ⟨s, Or.inl rfl, h⟩
      · exact Or.inl h
      · exact Or.inr ⟨s', Or.inr hs', h⟩
    · rintro (h | ⟨s', hs' | hs', h⟩)
      · exact Or.inl (Or.inr h)
      · subst hs'
        exact Or.inl (Or.inl h)
      · exact Or.inr ⟨s', hs', h⟩

theorem spotFold_mem_activations (l : List NormalizedSpot) (g : SpotGroup) (x : String) :
    x ∈ (l.foldl addSpotToGroup g).activations ↔
      x ∈ g.activations ∨ ∃ s ∈ l, x = s.activator ++ "|" ++ s.reference := by
  induction l generalizing g with
  | nil => simp
  | cons s l ih =>
    rw [List.foldl_cons, ih]
    simp only [addSpotToGroup, mem_listInsert, List.mem_cons]
    constructor
    · rintro ((h | h) | ⟨s', hs', h⟩)
      · exact Or.inr ⟨s, Or.inl rfl, h⟩
      · exact Or.inl h
      · exact Or.inr ⟨s', Or.inr hs', h⟩
    · rintro (h | ⟨s', hs' | hs', h⟩)
      · exact Or.inl (Or.inr h)
      · subst hs'
        exact Or.inl (Or.inl h)
      · exact Or.inr ⟨s', hs', h⟩

theorem spotFold_mem_stateActivators (l : List NormalizedSpot) (g : SpotGroup)
    (x : String) :
    x ∈ (l.foldl addSpotToGroup g).stateActivators ↔
      x ∈ g.stateActivators ∨
        ∃ s ∈ l, ∃ st, s.state = some st ∧ x = st ++ "|" ++ s.activator := by
  induction l generalizing g with
  | nil => simp
  | cons s l ih =>
    rw [List.foldl_cons, ih]
    cases hs : s.state with
    | none =>
      simp only [addSpotToGroup, hs, List.mem_cons]
      constructor
      · rintro (h | ⟨s', hs', h⟩)
        · exact Or.inl h
        · exact Or.inr ⟨s', Or.inr hs', h⟩
      · rintro (h | ⟨s', hs' | hs', st, hst, h⟩)
        · exact Or.inl h
        · subst hs'
          rw [hs] at hst
          cases hst
        · exact Or.inr ⟨s', hs', st, hst, h⟩
    | some st0 =>
      simp only [addSpotToGroup, hs, mem_listInsert, List.mem_cons]
      constructor
      · rintro ((h | h) | ⟨s', hs', h⟩)
        · exact Or.inr ⟨s, Or.inl rfl, st0, hs, h⟩
        · exact Or.inl h
        · exact Or.inr ⟨s', Or.inr hs', h⟩
      · rintro (h | ⟨s', hs' | hs', st, hst, h⟩)
        · exact Or.inl (Or.inr h)
        · subst hs'
          rw [hs] at hst
          injection hst with hst
          subst hst
          exact Or.inl (Or.inl h)
        · exact Or.inr ⟨s', hs', st, hst, h⟩

theorem spotFold_nodup (l : List NormalizedSpot) (g : SpotGroup)
    (h : g.activators.Nodup ∧ g.parks.Nodup ∧ g.activations.Nodup ∧
      g.stateActivators.Nodup) :
    (l.foldl addSpotToGroup g).activators.Nodup ∧
      (l.foldl addSpotToGroup g).parks.Nodup ∧
      (l.foldl addSpotToGroup g).activations.Nodup ∧
      (l.foldl addSpotToGroup g).stateActivators.Nodup := by
  induction l generalizing g with
  | nil => exact h
  | cons s l ih =>
    refine ih _ ⟨nodup_listInsert _ _ h.1, nodup_listInsert _ _ h.2.1,
      nodup_listInsert _ _ h.2.2.1, ?_⟩
    show (addSpotToGroup g s).stateActivators.Nodup
    unfold addSpotToGroup
    cases s.state with
    | none => exact h.2.2.2
    | some st => exact nodup_listInsert _ _ h.2.2.2

theorem spotFold_len (l : List NormalizedSpot) (g : SpotGroup) :
    (l.foldl addSpotToGroup g).activators.length ≤ g.activators.length + l.length ∧
      (l.foldl addSpotToGroup g).activations.length ≤
        g.activations.length + l.length := by
  induction l generalizing g with
  | nil => simp
  | cons s l ih =>
    rw [List.foldl_cons]
    have h := ih (addSpotToGroup g s)
    have h1 : (addSpotToGroup g s).activators.length ≤ g.activators.length + 1 :=
      length_listInsert_le _ _
    have h2 : (addSpotToGroup g s).activations.length ≤ g.activations.length + 1 :=
      length_listInsert_le _ _
    constructor
    · calc (l.foldl addSpotToGroup (addSpotToGroup g s)).activators.length ≤
            (addSpotToGroup g s).activators.length + l.length := h.1
        _ ≤ g.activators.length + (s :: l).length := by simp; omega
    · calc (l.foldl addSpotToGroup (addSpotToGroup g s)).activations.length ≤
            (addSpotToGroup g s).activations.length + l.length := h.2
        _ ≤ g.activations.length + (s :: l).length := by simp; omega

theorem aggFold_spotCount (l : List BaseAggregate) (g : AggregateGroup) :
    (l.foldl addAggToGroup g).spotCount =
      g.spotCount + (l.map (fun a => a.spot_count)).sum := by
  induction l generalizing g with
  | nil => simp
  | cons a l ih =>
    rw [List.foldl_cons, ih]
    simp [addAggToGroup]
    omega

theorem aggFold_mem_activators (l : List BaseAggregate) (g : AggregateGroup)
    (x : String) :
    x ∈ (l.foldl addAggToGroup g).activators ↔
      x ∈ g.activators ∨ ∃ a ∈ l, x ∈ a.activators := by
  induction l generalizing g with
  | nil => simp
  | cons a l ih =>
    rw [List.foldl_cons, ih]
    simp only [addAggToGroup, mem_insertAll, List.mem_cons]
    constructor
    · rintro ((h | h) | ⟨a', ha', h⟩)
      · exact Or.inl h
      · exact Or.inr ⟨a, Or.inl rfl, h⟩
      · exact Or.inr ⟨a', Or.inr ha', h⟩
    · rintro (h | ⟨a', ha' | ha', h⟩)
      · exact Or.inl (Or.inl h)
      · subst ha'
        exact Or.inl (Or.inr h)
      · exact Or.inr ⟨a', ha', h⟩

theorem aggFold_mem_parks (l : List BaseAggregate) (g : AggregateGroup) (x : String) :
    x ∈ (l.foldl addAggToGroup g).parks ↔
      x ∈ g.parks ∨ ∃ a ∈ l, x ∈ a.parks := by
  induction l generalizing g with
  | nil => simp
  | cons a l ih =>
    rw [List.foldl_cons, ih]
    simp only [addAggToGroup, mem_insertAll, List.mem_cons]
    constructor
    · rintro ((h | h) | ⟨a', ha', h⟩)
      · exact Or.inl h
      · exact Or.inr ⟨a, Or.inl rfl, h⟩
      · exact Or.inr ⟨a', Or.inr ha', h⟩
    · rintro (h | ⟨a', ha' | ha', h⟩)
      · exact Or.inl (Or.inl h)
      · subst ha'
        exact Or.inl (Or.inr h)
      · exact Or.inr ⟨a', ha', h⟩

theorem aggFold_mem_activations (l : List BaseAggregate) (g : AggregateGroup)
    (x : String) :
    x ∈ (l.foldl addAggToGroup g).activations ↔
      x ∈ g.activations ∨ ∃ a ∈ l, x ∈ a.activations := by
  induction l generalizing g with
  | nil => simp
  | cons a l ih =>
    rw [List.foldl_cons, ih]
    simp only [addAggToGroup, mem_insertAll, List.mem_cons]
    constructor
    · rintro ((h | h) | ⟨a', ha', h⟩)
      · exact Or.inl h
      · exact Or.inr ⟨a, Or.inl rfl, h⟩
      · exact Or.inr ⟨a', Or.inr ha', h⟩
    · rintro (h | ⟨a', ha' | ha', h⟩)
      · exact Or.inl (Or.inl h)
      · subst ha'
        exact Or.inl (Or.inr h)
      · exact Or.inr ⟨a', ha', h⟩

theorem aggFold_mem_stateActivators (l : List BaseAggregate) (g : AggregateGroup)
    (x : String) :
    x ∈ (l.foldl addAggToGroup g).stateActivators ↔
      x ∈ g.stateActivators ∨ ∃ a ∈ l, x ∈ a.state_activators := by
  induction l generalizing g with
  | nil => simp
  | cons a l ih =>
    rw [List.foldl_cons, ih]
    simp only [addAggToGroup, mem_insertAll, List.mem_cons]
    constructor
    · rintro ((h | h) | ⟨a', ha', h⟩)
      · exact Or.inl h
      · exact Or.inr ⟨a, Or.inl rfl, h⟩
      · exact Or.inr ⟨a', Or.inr ha', h⟩
    · rintro (h | ⟨a', ha' | ha', h⟩)
      · exact Or.inl (Or.inl h)
      · subst ha'
        exact Or.inl (Or.inr h)
      · exact Or.inr ⟨a', ha', h⟩

theorem aggFold_nodup (l : List BaseAggregate) (g : AggregateGroup)
    (h : g.activators.Nodup ∧ g.parks.Nodup ∧ g.activations.Nodup ∧
      g.stateActivators.Nodup) :
    (l.foldl addAggToGroup g).activators.Nodup ∧
      (l.foldl addAggToGroup g).parks.Nodup ∧
      (l.foldl addAggToGroup g).activations.Nodup ∧
      (l.foldl addAggToGroup g).stateActivators.Nodup := by
  induction l generalizing g with
  | nil => exact h
  | cons a l ih =>
    exact ih _ ⟨nodup_insertAll _ _ h.1, nodup_insertAll _ _ h.2.1,
      nodup_insertAll _ _ h.2.2.1, nodup_insertAll _ _ h.2.2.2⟩

theorem aggFold_len (l : List BaseAggregate) (g : AggregateGroup)
    (h1 : g.activations.Nodup) (h2 : g.activators.Nodup) :
    (l.foldl addAggToGroup g).activations.length ≤
        g.activations.length + (l.map (fun a => a.activations.dedup.length)).sum ∧
      (l.foldl addAggToGroup g).activators.length ≤
        g.activators.length + (l.map (fun a => a.activators.dedup.length)).sum := by
  induction l generalizing g with
  | nil => simp
  | cons a l ih =>
    rw [List.foldl_cons]
    have h := ih (addAggToGroup g a) (nodup_insertAll _ _ h1) (nodup_insertAll _ _ h2)
    have ha1 : (addAggToGroup g a).activations.length ≤
        g.activations.length + a.activations.dedup.length :=
      length_insertAll_le _ _ h1
    have ha2 : (addAggToGroup g a).activators.length ≤
        g.activators.length + a.activators.dedup.length :=
      length_insertAll_le _ _ h2
    constructor
    · calc (l.foldl addAggToGroup (addAggToGroup g a)).activations.length ≤ _ := h.1
        _ ≤ _ := by simp; omega
    · calc (l.foldl addAggToGroup (addAggToGroup g a)).activators.length ≤ _ := h.2
        _ ≤ _ := by simp; omega

theorem spotGroupInv_step (g : SpotGroup) (s : NormalizedSpot)
    (h : spotGroupInv g) : spotGroupInv (addSpotToGroup g s) := by
  obtain ⟨n1, n2, n3, n4, l1, l2⟩ := h
  have hsp : (addSpotToGroup g s).spots = g.spots ++ [s] := rfl
  refine ⟨nodup_listInsert _ _ n1, nodup_listInsert _ _ n2, nodup_listInsert _ _ n3,
    ?_, ?_, ?_⟩
  · show (addSpotToGroup g s).stateActivators.Nodup
    unfold addSpotToGroup
    cases s.state with
    | none => exact n4
    | some st => exact nodup_listInsert _ _ n4
  · have := length_listInsert_le g.activators s.activator
    rw [hsp]
    simp only [List.length_append, List.length_cons, List.length_nil]
    show (listInsert g.activators s.activator).length ≤ _
    omega
  · have := length_listInsert_le g.activations (s.activator ++ "|" ++ s.reference)
    rw [hsp]
    simp only [List.length_append, List.length_cons, List.length_nil]
    show (listInsert g.activations (s.activator ++ "|" ++ s.reference)).length ≤ _
    omega

theorem aggGroupInv_step (g : AggregateGroup) (c : BaseAggregate)
    (hc : aggregateInvariant c) (h : aggGroupInv g) :
    aggGroupInv (addAggToGroup g c) := by
  obtain ⟨n1, n2, n3, n4, l1, l2⟩ := h
  obtain ⟨e1, e2, e3, e4, e5⟩ := hc
  refine ⟨nodup_insertAll _ _ n1, nodup_insertAll _ _ n2, nodup_insertAll _ _ n3,
    nodup_insertAll _ _ n4, ?_, ?_⟩
  · have := length_insertAll_le g.activations c.activations n3
    show (insertAll g.activations c.activations).length ≤ g.spotCount + c.spot_count
    omega
  · have := length_insertAll_le g.activators c.activators n1
    show (insertAll g.activators c.activators).length ≤ g.spotCount + c.spot_count
    omega

/-- C4: every row emitted by `aggregateSpotsToHourly` satisfies the
spec's row invariant, and `groupsToAggregates` over the merge of child
rows satisfying the invariant emits only rows satisfying it. -/
theorem C4_aggregate_invariants :
    (∀ (spots : List NormalizedSpot) (hour : String),
      ∀ row ∈ aggregateSpotsToHourly spots hour,
        aggregateInvariant row.toBaseAggregate) ∧
    (∀ children : List BaseAggregate, (∀ c ∈ children, aggregateInvariant c) →
      ∀ row ∈ groupsToAggregates (mergeAggregatesIntoGroups children []),
        aggregateInvariant row) := by
  constructor
  · intro spots hour row hrow
    unfold aggregateSpotsToHourly at hrow
    simp only [List.mem_map, List.mem_filter] at hrow
    obtain ⟨tg, ⟨htg, -⟩, rfl⟩ := hrow
    obtain ⟨kg, hkg, rfl⟩ := htg
    have hP : spotGroupInv kg.2 := by
      refine values_foldGroups spotKey emptySpotGroup addSpotToGroup spots []
        (P := spotGroupInv) (by simp [spotGroupInv, emptySpotGroup])
        (fun g s _ hg => spotGroupInv_step g s hg) (by simp) kg.2 ?_
      exact List.mem_map_of_mem Prod.snd hkg
    obtain ⟨n1, n2, n3, -, l1, l2⟩ := hP
    exact ⟨by simp [List.dedup_eq_self.mpr n1], by simp [List.dedup_eq_self.mpr n2],
      by simp [List.dedup_eq_self.mpr n3], l2, l1⟩
  · intro children hch row hrow
    unfold groupsToAggregates at hrow
    simp only [List.mem_map, List.mem_filter] at hrow
    obtain ⟨tg, ⟨htg, -⟩, rfl⟩ := hrow
    obtain ⟨kg, hkg, rfl⟩ := htg
    have hP : aggGroupInv kg.2 := by
      refine values_foldGroups aggKey emptyAggGroup addAggToGroup children []
        (P := aggGroupInv) (by simp [aggGroupInv, emptyAggGroup])
        (fun g c hc hg => aggGroupInv_step g c (hch c hc) hg) (by simp) kg.2 ?_
      exact List.mem_map_of_mem Prod.snd hkg
    obtain ⟨n1, n2, n3, -, l1, l2⟩ := hP
    exact ⟨by simp [List.dedup_eq_self.mpr n1], by simp [List.dedup_eq_self.mpr n2],
      by simp [List.dedup_eq_self.mpr n3], l1, l2⟩

theorem keyTriple_concat (m b e : String) (hm : pipeFreeStr m) (hb : pipeFreeStr b)
    (he : pipeFreeStr e) : keyTriple (m ++ "|" ++ b ++ "|" ++ e) = (m, b, e) := by
  unfold keyTriple jsSplit
  have hd : (m ++ "|" ++ b ++ "|" ++ e).data =
      m.data ++ '|' :: (b.data ++ '|' :: e.data) := by
    show (((m.data ++ ['|']) ++ b.data) ++ ['|']) ++ e.data = _
    simp
  rw [hd, splitOnChar_append_sep _ _ _ hm, splitOnChar_append_sep _ _ _ hb,
    splitOnChar_no_sep _ _ he]
  rfl

theorem keyTriple_spotKey (s : NormalizedSpot) (h : spotPipeFree s) :
    keyTriple (spotKey s) = (s.mode, s.band, s.entity) :=
  keyTriple_concat s.mode s.band s.entity h.1 h.2.1 h.2.2

theorem keyTriple_aggKey (a : BaseAggregate) (h : aggPipeFree a) :
    keyTriple (aggKey a) = (a.mode, a.band, a.entity) :=
  keyTriple_concat a.mode a.band a.entity h.1 h.2.1 h.2.2

theorem filterKeys_mapUpd_pos {α : Type} (p : String → Prop) [DecidablePred p]
    (k : String) (f : Option α → α) (m : List (String × α)) (hp : p k) :
    filterKeys p (mapUpd k f m) = mapUpd k f (filterKeys p m) := by
  induction m with
  | nil => simp [mapUpd, filterKeys, List.filter_cons, hp]
  | cons q rest ih =>
    obtain ⟨k', v⟩ := q
    by_cases hk : k' = k
    · subst hk
      simp [mapUpd, filterKeys, List.filter_cons, hp]
    · by_cases hpk : p k'
      · simp only [mapUpd, if_neg hk, filterKeys, List.filter_cons,
          decide_eq_true_eq, if_pos hpk]
        simp only [filterKeys] at ih
        simp [ih, mapUpd, hk]
      · simp only [mapUpd, if_neg hk, filterKeys, List.filter_cons,
          decide_eq_true_eq, if_neg hpk]
        simpa [filterKeys] using ih

theorem filterKeys_mapUpd_neg {α : Type} (p : String → Prop) [DecidablePred p]
    (k : String) (f : Option α → α) (m : List (String × α)) (hp : ¬p k) :
    filterKeys p (mapUpd k f m) = filterKeys p m := by
  induction m with
  | nil => simp [mapUpd, filterKeys, List.filter_cons, hp]
  | cons q rest ih =>
    obtain ⟨k', v⟩ := q
    by_cases hk : k' = k
    · subst hk
      simp [mapUpd, filterKeys, List.filter_cons, hp]
    · simp only [mapUpd, if_neg hk, filterKeys, List.filter_cons]
      simpa [filterKeys, ih] using congrArg (fun l =>
        if decide (p k') = true then (k', v) :: l else l)
        (show List.filter (fun kg => decide (p kg.1)) (mapUpd k f rest) =
          List.filter (fun kg => decide (p kg.1)) rest from by
            simpa [filterKeys] using ih)

theorem filterKeys_foldGroups {β α : Type} (keyOf : β → String) (init : α)
    (step : α → β → α) (p : String → Prop) [DecidablePred p] (q : β → Bool)
    (xs : List β) (m : List (String × α))
    (hq : ∀ b ∈ xs, q b = true ↔ p (keyOf b)) :
    foldGroups keyOf init step (filterKeys p m) (xs.filter q) =
      filterKeys p (foldGroups keyOf init step m xs) := by
  induction xs generalizing m with
  | nil => rfl
  | cons b xs ih =>
    have hq' : ∀ b' ∈ xs, q b' = true ↔ p (keyOf b') :=
      fun b' hb' => hq b' (List.mem_cons_of_mem _ hb')
    rw [List.filter_cons]
    by_cases hqb : q b = true
    · rw [if_pos hqb]
      have hp : p (keyOf b) := (hq b (List.mem_cons_self _ _)).mp hqb
      have h1 : foldGroups keyOf init step (filterKeys p m) (b :: xs.filter q) =
          foldGroups keyOf init step
            (mapUpd (keyOf b) (fun g => step (g.getD init) b) (filterKeys p m))
            (xs.filter q) := rfl
      rw [h1, ← filterKeys_mapUpd_pos p _ _ m hp, ih _ hq']
      rfl
    · rw [if_neg hqb]
      have hp : ¬p (keyOf b) := fun hp => hqb ((hq b (List.mem_cons_self _ _)).mpr hp)
      have h2 : foldGroups keyOf init step m (b :: xs) =
          foldGroups keyOf init step
            (mapUpd (keyOf b) (fun g => step (g.getD init) b) m) xs := rfl
      rw [h2, ← ih _ hq', filterKeys_mapUpd_neg p _ _ m hp]

/-- C4 witness: the invariant-preservation half applied to one concrete
invariant-satisfying child row. -/
theorem C4_aggregate_invariants_witness : aggregateInvariant c4row :=
  C4_aggregate_invariants.2 [c4child] (by decide) c4row (by decide)

theorem filter_goodKey_rows {γ : Type} (M : List (String × γ)) :
    ((filterKeys goodKey M).map (fun kg => (keyTriple kg.1, kg.2))).filter
        (fun tg => decide (tripleOk tg.1)) =
      (M.map (fun kg => (keyTriple kg.1, kg.2))).filter
        (fun tg => decide (tripleOk tg.1)) := by
  induction M with
  | nil => rfl
  | cons kg M ih =>
    simp only [filterKeys, List.filter_cons, List.map_cons]
    by_cases h : goodKey kg.1
    · rw [if_pos (by simpa using h)]
      simp only [List.map_cons, List.filter_cons]
      rw [if_pos (by simpa [goodKey] using h), if_pos (by simpa [goodKey] using h)]
      have ih' := ih
      simp only [filterKeys] at ih'
      rw [ih']
    · rw [if_neg (by simpa using h), if_neg (by simpa [goodKey] using h)]
      have ih' := ih
      simp only [filterKeys] at ih'
      rw [ih']

/-- C10 counterexample: the spot `c10spot` has an empty entity, yet it
is not dropped — because its band contains `'|'`, the group key
`"m|b|c|"` splits into the fully non-empty triple `("m","b","c")` and
the spot is counted in an emitted row. -/
theorem C10_counterexample :
    c10spot.entity = "" ∧
    (aggregateSpotsToHourly [c10spot] "h").map
        (fun r => (r.mode, r.band, r.entity, r.spot_count)) =
      [("m", "b", "c", 1)] := by
  constructor
  · rfl
  · decide

/-- C10 (amended): every emitted row has non-empty mode, band and
entity; and provided no field contains the separator `'|'`, a spot or
child row with an empty mode, band or entity is dropped and contributes
to no output row (without that proviso the claim fails, see the
counterexample). -/
theorem C10_empty_fields_dropped :
    (∀ (spots : List NormalizedSpot) (hour : String),
      ∀ r ∈ aggregateSpotsToHourly spots hour,
        r.mode ≠ "" ∧ r.band ≠ "" ∧ r.entity ≠ "") ∧
    (∀ groups : List (String × AggregateGroup),
      ∀ r ∈ groupsToAggregates groups,
        r.mode ≠ "" ∧ r.band ≠ "" ∧ r.entity ≠ "") ∧
    (∀ (spots : List NormalizedSpot) (hour : String),
      (∀ s ∈ spots, spotPipeFree s) →
      aggregateSpotsToHourly spots hour =
        aggregateSpotsToHourly (spots.filter (fun s => decide (goodSpot s))) hour) ∧
    (∀ children : List BaseAggregate, (∀ c ∈ children, aggPipeFree c) →
      groupsToAggregates (mergeAggregatesIntoGroups children []) =
        groupsToAggregates (mergeAggregatesIntoGroups
          (children.filter (fun c => decide (goodAgg c))) [])) := by
  refine ⟨?_, ?_, ?_, ?_⟩
  · intro spots hour r hr
    unfold aggregateSpotsToHourly at hr
    simp only [List.mem_map, List.mem_filter] at hr
    obtain ⟨tg, ⟨-, hok⟩, rfl⟩ := hr
    exact of_decide_eq_true hok
  · intro groups r hr
    unfold groupsToAggregates at hr
    simp only [List.mem_map, List.mem_filter] at hr
    obtain ⟨tg, ⟨-, hok⟩, rfl⟩ := hr
    exact of_decide_eq_true hok
  · intro spots hour hfree
    have hfg : filterKeys goodKey (spotGroups spots) =
        spotGroups (spots.filter (fun s => decide (goodSpot s))) := by
      have h := filterKeys_foldGroups spotKey emptySpotGroup addSpotToGroup goodKey
        (fun s => decide (goodSpot s)) spots []
        (fun s hs => by
          simp only [decide_eq_true_eq]
          unfold goodKey
          rw [keyTriple_spotKey s (hfree s hs)]
          exact Iff.rfl)
      simpa [spotGroups, filterKeys] using h.symm
    unfold aggregateSpotsToHourly
    rw [← hfg, filter_goodKey_rows]
  · intro children hfree
    have hfg : filterKeys goodKey (mergeAggregatesIntoGroups children []) =
        mergeAggregatesIntoGroups
          (children.filter (fun c => decide (goodAgg c))) [] := by
      have h := filterKeys_foldGroups aggKey emptyAggGroup addAggToGroup goodKey
        (fun c => decide (goodAgg c)) children []
        (fun c hc => by
          simp only [decide_eq_true_eq]
          unfold goodKey
          rw [keyTriple_aggKey c (hfree c hc)]
          exact Iff.rfl)
      simpa [mergeAggregatesIntoGroups, filterKeys] using h.symm
    unfold groupsToAggregates
    rw [← hfg, filter_goodKey_rows]

/-- C10 witness: the amended drop property applied to a concrete pair
of `'|'`-free spots, one good and one with an empty mode. -/
theorem C10_empty_fields_dropped_witness :
    aggregateSpotsToHourly
        [{ blankSpot with mode := "CW", band := "40m", entity := "K" },
         { blankSpot with mode := "", band := "40m", entity := "K" }] "h" =
      aggregateSpotsToHourly
        ([{ blankSpot with mode := "CW", band := "40m", entity := "K" },
          { blankSpot with mode := "", band := "40m", entity := "K" }].filter
          (fun s => decide (goodSpot s))) "h" :=
  C10_empty_fields_dropped.2.2.1 _ "h" (by decide)

theorem intMapLookup_intMapSet_self (m : List (Int × NormalizedSpot)) (k : Int)
    (v : NormalizedSpot) : intMapLookup k (intMapSet m k v) = some v := by
  induction m with
  | nil => simp [intMapSet, intMapLookup]
  | cons p rest ih =>
    obtain ⟨k', v'⟩ := p
    by_cases h : k' = k
    · subst h
      simp [intMapSet, intMapLookup]
    · simp only [intMapSet, if_neg h, intMapLookup]
      exact ih

theorem intMapLookup_intMapSet_ne (m : List (Int × NormalizedSpot)) (k k' : Int)
    (v : NormalizedSpot) (h : k' ≠ k) :
    intMapLookup k' (intMapSet m k v) = intMapLookup k' m := by
  induction m with
  | nil =>
    simp only [intMapSet, intMapLookup]
    rw [if_neg (fun he => h he.symm)]
  | cons p rest ih =>
    obtain ⟨k'', v'⟩ := p
    by_cases hk : k'' = k
    · subst hk
      simp only [intMapSet, if_pos rfl, intMapLookup]
      rw [if_neg (fun he => h he.symm), if_neg (fun he => h he.symm)]
    · simp only [intMapSet, if_neg hk, intMapLookup]
      by_cases hk2 : k'' = k'
      · rw [if_pos hk2, if_pos hk2]
      · rw [if_neg hk2, if_neg hk2, ih]

theorem intKeys_intMapSet (m : List (Int × NormalizedSpot)) (k : Int)
    (v : NormalizedSpot) :
    (intMapSet m k v).map Prod.fst =
      if k ∈ m.map Prod.fst then m.map Prod.fst else m.map Prod.fst ++ [k] := by
  induction m with
  | nil => simp [intMapSet]
  | cons p rest ih =>
    obtain ⟨k', v'⟩ := p
    by_cases hk : k' = k
    · subst hk
      simp [intMapSet]
    · simp only [intMapSet, if_neg hk, List.map_cons, ih]
      by_cases hmem : k ∈ rest.map Prod.fst
      · rw [if_pos hmem,
          if_pos (show k ∈ k' :: rest.map Prod.fst from List.mem_cons_of_mem _ hmem)]
      · rw [if_neg hmem, if_neg (show k ∉ k' :: rest.map Prod.fst from by
          simp only [List.mem_cons, not_or]
          exact ⟨fun h => hk h.symm, hmem⟩)]
        simp

theorem intNodup_keys_intMapSet (m : List (Int × NormalizedSpot)) (k : Int)
    (v : NormalizedSpot) (h : (m.map Prod.fst).Nodup) :
    ((intMapSet m k v).map Prod.fst).Nodup := by
  rw [intKeys_intMapSet]
  split
  · exact h
  · rename_i hmem
    simpa using List.Nodup.append h (List.nodup_singleton k)
      (by simpa using fun hb => hmem hb)

theorem intMem_iff_intMapLookup (k : Int) (v : NormalizedSpot)
    (m : List (Int × NormalizedSpot)) (h : (m.map Prod.fst).Nodup) :
    (k, v) ∈ m ↔ intMapLookup k m = some v := by
  induction m with
  | nil => simp [intMapLookup]
  | cons p rest ih =>
    obtain ⟨k', v'⟩ := p
    simp only [List.map_cons, List.nodup_cons] at h
    simp only [List.mem_cons, intMapLookup, Prod.mk.injEq]
    by_cases hk : k' = k
    · subst hk
      rw [if_pos rfl]
      constructor
      · rintro (⟨-, rfl⟩ | hmem)
        · rfl
        · exact absurd (List.mem_map_of_mem Prod.fst hmem) h.1
      · intro hv
        injection hv with hv
        exact Or.inl ⟨rfl, hv.symm⟩
    · rw [if_neg hk, ← ih h.2]
      constructor
      · rintro (⟨he, -⟩ | hmem)
        · exact absurd he.symm hk
        · exact hmem
      · exact fun hmem => Or.inr hmem

theorem intMapLookup_isSome_iff (k : Int) (m : List (Int × NormalizedSpot)) :
    (∃ v, intMapLookup k m = some v) ↔ k ∈ m.map Prod.fst := by
  induction m with
  | nil => simp [intMapLookup]
  | cons p rest ih =>
    obtain ⟨k', v'⟩ := p
    simp only [intMapLookup, List.map_cons, List.mem_cons]
    by_cases hk : k' = k
    · subst hk
      simp
    · rw [if_neg hk, ih]
      constructor
      · exact fun h => Or.inr h
      · rintro (h | h)
        · exact absurd h.symm hk
        · exact h

theorem lookup_spotFoldMap (all : List NormalizedSpot)
    (m : List (Int × NormalizedSpot)) (k : Int) :
    intMapLookup k (spotFoldMap m all) =
      match all.reverse.find? (fun t => decide (t.spotId = k)) with
      | some t => some t
      | none => intMapLookup k m := by
  induction all generalizing m with
  | nil => simp [spotFoldMap]
  | cons s rest ih =>
    have hone : spotFoldMap m (s :: rest) = spotFoldMap (intMapSet m s.spotId s) rest :=
      rfl
    rw [hone, ih]
    rw [show (s :: rest).reverse = rest.reverse ++ [s] from by simp]
    rw [List.find?_append]
    cases hf : rest.reverse.find? (fun t => decide (t.spotId = k)) with
    | some t => simp
    | none =>
      by_cases hk : s.spotId = k
      · subst hk
        simp [List.find?, intMapLookup_intMapSet_self]
      · have hfs : (List.find? (fun t => decide (t.spotId = k)) [s]) = none := by
          simp [List.find?, hk]
        rw [hfs, intMapLookup_intMapSet_ne _ _ _ _ (fun he => hk he.symm)]
        rfl

theorem keys_nodup_spotFoldMap (all : List NormalizedSpot)
    (m : List (Int × NormalizedSpot)) (h : (m.map Prod.fst).Nodup) :
    ((spotFoldMap m all).map Prod.fst).Nodup := by
  induction all generalizing m with
  | nil => exact h
  | cons s rest ih => exact ih _ (intNodup_keys_intMapSet _ _ _ h)

theorem id_inv_intMapSet (m : List (Int × NormalizedSpot)) (k : Int)
    (v : NormalizedSpot) (hv : v.spotId = k)
    (h : ∀ p ∈ m, (p : Int × NormalizedSpot).2.spotId = p.1) :
    ∀ p ∈ intMapSet m k v, (p : Int × NormalizedSpot).2.spotId = p.1 := by
  induction m with
  | nil =>
    intro p hp
    simp only [intMapSet, List.mem_singleton] at hp
    subst hp
    exact hv
  | cons q m ihm =>
    obtain ⟨k', v'⟩ := q
    intro p hp
    by_cases hk : k' = k
    · subst hk
      simp only [intMapSet, if_pos rfl] at hp
      cases hp with
      | head => exact hv
      | tail _ hp => exact h _ (List.mem_cons_of_mem _ hp)
    · simp only [intMapSet, if_neg hk] at hp
      cases hp with
      | head => exact h _ (List.mem_cons_self _ _)
      | tail _ hp => exact ihm (fun q hq => h q (List.mem_cons_of_mem _ hq)) p hp

theorem id_inv_spotFoldMap (all : List NormalizedSpot)
    (m : List (Int × NormalizedSpot))
    (h : ∀ p ∈ m, (p : Int × NormalizedSpot).2.spotId = p.1) :
    ∀ p ∈ spotFoldMap m all, (p : Int × NormalizedSpot).2.spotId = p.1 := by
  induction all generalizing m with
  | nil => exact h
  | cons s rest ih => exact ih _ (id_inv_intMapSet m s.spotId s rfl h)

theorem keys_mem_spotFoldMap (all : List NormalizedSpot)
    (m : List (Int × NormalizedSpot)) (k : Int) :
    k ∈ (spotFoldMap m all).map Prod.fst ↔
      k ∈ m.map Prod.fst ∨ ∃ s ∈ all, s.spotId = k := by
  induction all generalizing m with
  | nil => simp [spotFoldMap]
  | cons s rest ih =>
    have hone : spotFoldMap m (s :: rest) = spotFoldMap (intMapSet m s.spotId s) rest :=
      rfl
    rw [hone, ih]
    rw [intKeys_intMapSet]
    by_cases hk : s.spotId = k
    · subst hk
      split
      · rename_i hmem
        simp [hmem]
      · simp
    · constructor
      · rintro (h | h)
        · split at h
          · exact Or.inl h
          · simp only [List.mem_append, List.mem_singleton] at h
            rcases h with h | h
            · exact Or.inl h
            · exact absurd h.symm hk
        · obtain ⟨t, ht, hts⟩ := h
          exact Or.inr ⟨t, List.mem_cons_of_mem _ ht, hts⟩
      · rintro (h | ⟨t, ht, hts⟩)
        · split
          · exact Or.inl h
          · exact Or.inl (List.mem_append_left _ h)
        · rcases List.mem_cons.mp ht with rfl | ht
          · exact absurd hts hk
          · exact Or.inr ⟨t, ht, hts⟩

theorem collectSpots_eq_spotFoldMap (rs : List (Except String (List NormalizedSpot))) :
    collectSpots rs = (spotFoldMap [] (okSpotLists rs).flatten).map (fun p => p.2) := by
  unfold collectSpots
  congr 1
  have hgen : ∀ (rs : List (Except String (List NormalizedSpot)))
      (m : List (Int × NormalizedSpot)),
      rs.foldl (fun acc r =>
        match r with
        | .error _ => acc
        | .ok spots => spots.foldl (fun m s => intMapSet m s.spotId s) acc) m =
        spotFoldMap m (okSpotLists rs).flatten := by
    intro rs
    induction rs with
    | nil => intro m; simp [okSpotLists, spotFoldMap]
    | cons r rest ih =>
      intro m
      cases r with
      | error e => simpa [okSpotLists] using ih m
      | ok spots =>
        have h1 : okSpotLists (.ok spots :: rest) = spots :: okSpotLists rest := rfl
        rw [List.foldl_cons, ih, h1, List.flatten_cons]
        show spotFoldMap (spotFoldMap m spots) (okSpotLists rest).flatten =
          spotFoldMap m (spots ++ (okSpotLists rest).flatten)
        unfold spotFoldMap
        rw [List.foldl_append]
  exact hgen rs []

/-- C5: in the dedup fold of `aggregateHour`, each `spotId` occurring in
any successfully read capture contributes exactly one record: the ids of
the output are duplicate-free, every output record comes from the input,
an id appears in the output iff it appears in some successfully read
capture, and the surviving record for an id is the last occurrence
across the captures in processing order. -/
theorem C5_dedup_by_spotId (rs : List (Except String (List NormalizedSpot))) :
    ((collectSpots rs).map (fun s => s.spotId)).Nodup ∧
    (∀ s ∈ collectSpots rs, s ∈ (okSpotLists rs).flatten) ∧
    (∀ i : Int, (∃ s ∈ (okSpotLists rs).flatten, s.spotId = i) ↔
      (∃ s ∈ collectSpots rs, s.spotId = i)) ∧
    (∀ s ∈ collectSpots rs,
      (okSpotLists rs).flatten.reverse.find? (fun t => decide (t.spotId = s.spotId)) =
        some s) := by
  rw [collectSpots_eq_spotFoldMap]
  set all := (okSpotLists rs).flatten with hall
  set m := spotFoldMap [] all with hm
  have hnd : (m.map Prod.fst).Nodup := keys_nodup_spotFoldMap all [] (by simp)
  have hid : ∀ p ∈ m, (p : Int × NormalizedSpot).2.spotId = p.1 :=
    id_inv_spotFoldMap all [] (by simp)
  have hlast : ∀ s ∈ m.map (fun p => p.2),
      all.reverse.find? (fun t => decide (t.spotId = s.spotId)) = some s := by
    intro s hs
    obtain ⟨p, hp, rfl⟩ := List.mem_map.mp hs
    have hk : p.2.spotId = p.1 := hid p hp
    have hl : intMapLookup p.1 m = some p.2 := by
      rw [← intMem_iff_intMapLookup p.1 p.2 m hnd]
      exact (by cases p; exact hp)
    rw [hm, lookup_spotFoldMap] at hl
    rw [hk]
    cases hf : all.reverse.find? (fun t => decide (t.spotId = p.1)) with
    | some t =>
      rw [hf] at hl
      injection hl with hl
      rw [hl]
    | none =>
      rw [hf] at hl
      simp [intMapLookup] at hl
  refine ⟨?_, ?_, ?_, hlast⟩
  · rw [List.map_map]
    have hcomp : m.map ((fun s => s.spotId) ∘ fun p => (p : Int × NormalizedSpot).2) =
        m.map Prod.fst :=
      List.map_congr_left (fun p hp => hid p hp)
    rw [hcomp]
    exact hnd
  · intro s hs
    have := hlast s hs
    have hmem := List.mem_of_find?_eq_some this
    simpa using hmem
  · intro i
    constructor
    · rintro ⟨s, hsall, hsi⟩
      have hk : i ∈ (spotFoldMap [] all).map Prod.fst := by
        rw [keys_mem_spotFoldMap]
        exact Or.inr ⟨s, hsall, hsi⟩
      obtain ⟨v, hv⟩ := (intMapLookup_isSome_iff i m).mpr hk
      refine ⟨v, ?_, ?_⟩
      · exact List.mem_map_of_mem (fun p => p.2) ((intMem_iff_intMapLookup i v m hnd).mpr hv)
      · have : (i, v) ∈ m := (intMem_iff_intMapLookup i v m hnd).mpr hv
        exact hid (i, v) this
    · rintro ⟨s, hsm, hsi⟩
      have := hlast s hsm
      exact ⟨s, by simpa using List.mem_of_find?_eq_some this, hsi⟩

/-- C5 witness: two capture files sharing `spotId` 1 — the record from
the last file wins. -/
theorem C5_dedup_by_spotId_witness :
    (okSpotLists [.ok [c5spotA], .ok [c5spotB]]).flatten.reverse.find?
        (fun t => decide (t.spotId = c5spotB.spotId)) = some c5spotB :=
  (C5_dedup_by_spotId [.ok [c5spotA], .ok [c5spotB]]).2.2.2 c5spotB (by decide)

/-- C9: on an empty listing every level publishes an empty summary
(all totals zero, no files processed, no aggregate rows) and attempts
no object-store write at all — no rollup file, no meta sidecar, no
manifest update. -/
theorem C9_empty_input_no_writes :
    ∀ (hashFn : String → String) (serializeH : HourlyAggregate → String)
      (serializeR : BaseAggregate → String) (envH : HourEnv) (envR : RollupEnv)
      (path ts level : String),
      (envH.listResult = .ok [] →
        aggregateHourModel hashFn serializeH envH path ts =
          ⟨.ok ⟨ts, envH.now, 0, 0, 0, 0, 0, []⟩, none, none, none, []⟩) ∧
      (envR.listResult = .ok [] →
        rollupModel hashFn serializeR envR level path ts =
          ⟨.ok ⟨ts, envR.now, 0, 0, 0, 0, 0, []⟩, none, none, none, []⟩) ∧
      (envR.listResult = .ok [] →
        aggregateDayModel hashFn serializeR envR path ts =
          ⟨.ok ⟨ts, envR.now, 0, 0, 0, 0, 0, []⟩, none, none, none, []⟩) ∧
      (envR.listResult = .ok [] →
        aggregateMonthModel hashFn serializeR envR path ts =
          ⟨.ok ⟨ts, envR.now, 0, 0, 0, 0, 0, []⟩, none, none, none, []⟩) := by
  intro hashFn serializeH serializeR envH envR path ts level
  refine ⟨?_, ?_, ?_, ?_⟩ <;> intro h
  · unfold aggregateHourModel
    rw [h]
    rfl
  · unfold rollupModel
    rw [h]
    rfl
  · unfold aggregateDayModel rollupModel
    rw [h]
    rfl
  · unfold aggregateMonthModel rollupModel
    rw [h]
    rfl

/-- C9 witness: the hour-level conclusion at a concrete empty
environment. -/
theorem C9_empty_input_no_writes_witness :
    aggregateHourModel (fun _ => "h8") (fun _ => "row")
        ⟨.ok [], fun _ => .ok [], true, true, true, "T"⟩ "2024/01/01/00"
        "2024-01-01T00:00:00.000Z" =
      ⟨.ok ⟨"2024-01-01T00:00:00.000Z", "T", 0, 0, 0, 0, 0, []⟩,
        none, none, none, []⟩ :=
  (C9_empty_input_no_writes (fun _ => "h8") (fun _ => "row") (fun _ => "row")
      ⟨.ok [], fun _ => .ok [], true, true, true, "T"⟩
      ⟨.ok [], fun _ => .ok [], true, true, true, "T"⟩ "2024/01/01/00"
      "2024-01-01T00:00:00.000Z" "daily").1 rfl

theorem collectSpots_skip_errors (rs : List (Except String (List NormalizedSpot))) :
    collectSpots rs =
      collectSpots (rs.filter (fun r =>
        match r with | .ok _ => true | .error _ => false)) := by
  unfold collectSpots
  congr 1
  have hgen : ∀ (rs : List (Except String (List NormalizedSpot)))
      (acc : List (Int × NormalizedSpot)),
      rs.foldl (fun acc r =>
        match r with
        | .error _ => acc
        | .ok spots => spots.foldl (fun m s => intMapSet m s.spotId s) acc) acc =
      (rs.filter (fun r => match r with | .ok _ => true | .error _ => false)).foldl
        (fun acc r =>
          match r with
          | .error _ => acc
          | .ok spots => spots.foldl (fun m s => intMapSet m s.spotId s) acc) acc := by
    intro rs
    induction rs with
    | nil => intro acc; rfl
    | cons r rest ih =>
      intro acc
      cases r with
      | error e => simpa [List.filter_cons] using ih acc
      | ok spots => simpa [List.filter_cons] using ih _
  exact hgen rs []

theorem okAggLists_skip_errors (rs : List (Except String (List BaseAggregate))) :
    okAggLists rs =
      okAggLists (rs.filter (fun r =>
        match r with | .ok _ => true | .error _ => false)) := by
  induction rs with
  | nil => rfl
  | cons r rest ih =>
    cases r with
    | error e => simpa [okAggLists, List.filter_cons] using ih
    | ok aggs =>
      have h1 : okAggLists (Except.ok aggs :: rest) = aggs :: okAggLists rest := rfl
      rw [h1, ih]
      rfl

/-- C8: a job errs exactly on a failed listing (LIST_ERROR) or a failed
rollup put (STORAGE_ERROR); individual failed child reads are skipped
(the fold ignores errored reads); and the meta/manifest write outcomes
never change the result. Stated for the hour model and the shared
day/month rollup model. -/
theorem C8_failure_semantics :
    ∀ (hashFn : String → String) (serializeH : HourlyAggregate → String)
      (serializeR : BaseAggregate → String) (envH : HourEnv) (envR : RollupEnv)
      (path ts level : String),
      (∀ msg, envH.listResult = .error msg →
        (aggregateHourModel hashFn serializeH envH path ts).result =
          .error ⟨.LIST_ERROR, msg⟩) ∧
      (∀ keys, envH.listResult = .ok keys → keys ≠ [] →
        envH.rollupPutOk = false →
        (aggregateHourModel hashFn serializeH envH path ts).result =
          .error ⟨.STORAGE_ERROR, "put failed"⟩) ∧
      (∀ keys, envH.listResult = .ok keys →
        (keys = [] ∨ envH.rollupPutOk = true) →
        exceptIsOk (aggregateHourModel hashFn serializeH envH path ts).result =
          true) ∧
      (∀ b1 b2, (aggregateHourModel hashFn serializeH
          { envH with metaPutOk := b1, manifestOk := b2 } path ts).result =
        (aggregateHourModel hashFn serializeH envH path ts).result) ∧
      (∀ msg, envR.listResult = .error msg →
        (rollupModel hashFn serializeR envR level path ts).result =
          .error ⟨.LIST_ERROR, msg⟩) ∧
      (∀ keys, envR.listResult = .ok keys → keys ≠ [] →
        envR.rollupPutOk = false →
        (rollupModel hashFn serializeR envR level path ts).result =
          .error ⟨.STORAGE_ERROR, "put failed"⟩) ∧
      (∀ keys, envR.listResult = .ok keys →
        (keys = [] ∨ envR.rollupPutOk = true) →
        exceptIsOk (rollupModel hashFn serializeR envR level path ts).result =
          true) ∧
      (∀ b1 b2, (rollupModel hashFn serializeR
          { envR with metaPutOk := b1, manifestOk := b2 } level path ts).result =
        (rollupModel hashFn serializeR envR level path ts).result) ∧
      (aggregateDayModel hashFn serializeR envR path ts =
        rollupModel hashFn serializeR envR "daily" path ts) ∧
      (aggregateMonthModel hashFn serializeR envR path ts =
        rollupModel hashFn serializeR envR "monthly" path ts) := by
  intro hashFn serializeH serializeR envH envR path ts level
  refine ⟨?_, ?_, ?_, ?_, ?_, ?_, ?_, ?_, rfl, rfl⟩
  · intro msg h
    unfold aggregateHourModel
    rw [h]
  · intro keys h hne hput
    rcases keys with - | ⟨k, keys⟩
    · exact absurd rfl hne
    · unfold aggregateHourModel
      rw [h, hput]
      rfl
  · intro keys h hor
    rcases keys with - | ⟨k, keys⟩
    · unfold aggregateHourModel
      rw [h]
      rfl
    · have hput : envH.rollupPutOk = true := by
        rcases hor with hk | hp
        · cases hk
        · exact hp
      unfold aggregateHourModel
      rw [h, hput]
      rfl
  · intro b1 b2
    rfl
  · intro msg h
    unfold rollupModel
    rw [h]
  · intro keys h hne hput
    rcases keys with - | ⟨k, keys⟩
    · exact absurd rfl hne
    · unfold rollupModel
      rw [h, hput]
      rfl
  · intro keys h hor
    rcases keys with - | ⟨k, keys⟩
    · unfold rollupModel
      rw [h]
      rfl
    · have hput : envR.rollupPutOk = true := by
        rcases hor with hk | hp
        · cases hk
        · exact hp
      unfold rollupModel
      rw [h, hput]
      rfl
  · intro b1 b2
    rfl

/-- C8 witness: the LIST_ERROR conjunct at a concrete failing
environment. -/
theorem C8_failure_semantics_witness :
    (aggregateHourModel (fun _ => "h8") (fun _ => "row")
        ⟨.error "boom", fun _ => .ok [], true, true, true, "T"⟩ "p" "t").result =
      .error ⟨.LIST_ERROR, "boom"⟩ :=
  (C8_failure_semantics (fun _ => "h8") (fun _ => "row") (fun _ => "row")
      ⟨.error "boom", fun _ => .ok [], true, true, true, "T"⟩
      ⟨.ok [], fun _ => .ok [], true, true, true, "T"⟩ "p" "t" "daily").1 "boom" rfl

/-- C7: the published NDJSON bytes, the content hash, and the
content-addressed key depend only on the listing and the listed files'
contents — two runs over environments that agree on those (for any hash
function and row serializer) produce identical values, at the hour level
and at the day/month rollup level. -/
theorem C7_content_addressing_deterministic :
    ∀ (hashFn : String → String) (serializeH : HourlyAggregate → String)
      (serializeR : BaseAggregate → String) (env1 env2 : HourEnv)
      (envR1 envR2 : RollupEnv) (keys rkeys : List String)
      (path ts level : String),
      (env1.listResult = .ok keys → env2.listResult = .ok keys →
        (∀ k ∈ keys, env1.readResult k = env2.readResult k) →
        (aggregateHourModel hashFn serializeH env1 path ts).ndjson =
            (aggregateHourModel hashFn serializeH env2 path ts).ndjson ∧
          (aggregateHourModel hashFn serializeH env1 path ts).contentHash =
            (aggregateHourModel hashFn serializeH env2 path ts).contentHash ∧
          (aggregateHourModel hashFn serializeH env1 path ts).storedKey =
            (aggregateHourModel hashFn serializeH env2 path ts).storedKey) ∧
      (envR1.listResult = .ok rkeys → envR2.listResult = .ok rkeys →
        (∀ k ∈ rkeys, envR1.readResult k = envR2.readResult k) →
        (rollupModel hashFn serializeR envR1 level path ts).ndjson =
            (rollupModel hashFn serializeR envR2 level path ts).ndjson ∧
          (rollupModel hashFn serializeR envR1 level path ts).contentHash =
            (rollupModel hashFn serializeR envR2 level path ts).contentHash ∧
          (rollupModel hashFn serializeR envR1 level path ts).storedKey =
            (rollupModel hashFn serializeR envR2 level path ts).storedKey) := by
  intro hashFn serializeH serializeR env1 env2 envR1 envR2 keys rkeys path ts level
  constructor
  · intro h1 h2 hread
    have hmap : keys.map env1.readResult = keys.map env2.readResult :=
      List.map_congr_left hread
    simp only [aggregateHourModel, h1, h2]
    rw [hmap]
    by_cases hemp : keys.isEmpty = true
    · rw [if_pos hemp, if_pos hemp]
      exact ⟨rfl, rfl, rfl⟩
    · rw [if_neg hemp, if_neg hemp]
      by_cases hb1 : env1.rollupPutOk = true <;>
        by_cases hb2 : env2.rollupPutOk = true <;>
          simp [hb1, hb2]
  · intro h1 h2 hread
    have hmap : rkeys.map envR1.readResult = rkeys.map envR2.readResult :=
      List.map_congr_left hread
    simp only [rollupModel, h1, h2]
    rw [hmap]
    by_cases hemp : rkeys.isEmpty = true
    · rw [if_pos hemp, if_pos hemp]
      exact ⟨rfl, rfl, rfl⟩
    · rw [if_neg hemp, if_neg hemp]
      by_cases hb1 : envR1.rollupPutOk = true <;>
        by_cases hb2 : envR2.rollupPutOk = true <;>
          simp [hb1, hb2]

/-- C7 witness: two environments differing only in irrelevant read
results and put outcomes yield the same published bytes, hash and key. -/
theorem C7_content_addressing_deterministic_witness :
    (aggregateHourModel (fun _ => "h8") (fun _ => "row")
        ⟨.ok ["k"], fun _ => .ok [], true, true, true, "T1"⟩ "p" "t").ndjson =
      (aggregateHourModel (fun _ => "h8") (fun _ => "row")
        ⟨.ok ["k"], fun _ => .ok [], false, false, false, "T2"⟩ "p" "t").ndjson :=
  ((C7_content_addressing_deterministic (fun _ => "h8") (fun _ => "row")
      (fun _ => "row") ⟨.ok ["k"], fun _ => .ok [], true, true, true, "T1"⟩
      ⟨.ok ["k"], fun _ => .ok [], false, false, false, "T2"⟩
      ⟨.ok [], fun _ => .ok [], true, true, true, "T"⟩
      ⟨.ok [], fun _ => .ok [], true, true, true, "T"⟩ ["k"] [] "p" "t" "daily").1
    rfl rfl (fun k _ => rfl)).1

theorem mem_set_cases (l : List ManifestEntry) (i : Nat) (e x : ManifestEntry)
    (h : x ∈ l.set i e) : x = e ∨ x ∈ l := by
  induction l generalizing i with
  | nil => simp [List.set] at h
  | cons y l ih =>
    cases i with
    | zero =>
      rw [List.set_cons_zero] at h
      rcases List.mem_cons.mp h with rfl | h
      · exact Or.inl rfl
      · exact Or.inr (List.mem_cons_of_mem _ h)
    | succ i =>
      rw [List.set_cons_succ] at h
      rcases List.mem_cons.mp h with rfl | h
      · exact Or.inr (List.mem_cons_self _ _)
      · rcases ih i h with h | h
        · exact Or.inl h
        · exact Or.inr (List.mem_cons_of_mem _ h)

theorem findTsIdx_none_imp (l : List ManifestEntry) (t : String)
    (h : findTsIdx t l = none) : ∀ x ∈ l, x.ts ≠ t := by
  induction l with
  | nil => intro x hx; cases hx
  | cons y l ih =>
    intro x hx
    unfold findTsIdx at h
    by_cases hp : y.ts = t
    · rw [if_pos hp] at h
      cases h
    · rw [if_neg hp] at h
      rcases List.mem_cons.mp hx with rfl | hx
      · exact hp
      · refine ih ?_ x hx
        cases hf : findTsIdx t l with
        | none => rfl
        | some j =>
          rw [hf] at h
          simp at h

theorem tsmap_set_of_findTsIdx (l : List ManifestEntry) (e : ManifestEntry)
    (i : Nat) (h : findTsIdx e.ts l = some i) :
    (l.set i e).map (fun x => x.ts) = l.map (fun x => x.ts) := by
  induction l generalizing i with
  | nil => cases h
  | cons y l ih =>
    unfold findTsIdx at h
    by_cases hp : y.ts = e.ts
    · rw [if_pos hp] at h
      injection h with h
      subst h
      rw [List.set_cons_zero]
      simp [hp]
    · rw [if_neg hp] at h
      cases hf : findTsIdx e.ts l with
      | none =>
        rw [hf] at h
        cases h
      | some j =>
        rw [hf] at h
        rw [show Option.map (fun x => x + 1) (some j) = some (j + 1) from rfl] at h
        injection h with h
        subst h
        rw [List.set_cons_succ]
        simp [ih j hf]

theorem strict_of_sorted_nodupTs (l : List ManifestEntry)
    (hs : l.Pairwise manifestDescLE) (hn : (l.map (fun x => x.ts)).Nodup) :
    l.Pairwise (fun a b => b.ts < a.ts) := by
  have hne : l.Pairwise (fun a b => a.ts ≠ b.ts) := List.pairwise_map.mp hn
  exact (hs.and hne).imp (fun h => lt_of_le_of_ne h.1 (Ne.symm h.2))

theorem levelInv_updateLevelList (l : List ManifestEntry) (cap : Nat)
    (store : List String) (e : ManifestEntry) (hinv : levelInv l cap store)
    (hpath : e.path ∈ store) :
    levelInv (updateLevelList l e cap) cap store := by
  obtain ⟨hsorted, hlen, hpaths⟩ := hinv
  have hndl : (l.map (fun x => x.ts)).Nodup :=
    List.pairwise_map.mpr (hsorted.imp (fun h => (ne_of_lt h).symm))
  set replaced :=
    match findTsIdx e.ts l with
    | some i => l.set i e
    | none => l ++ [e] with hrep
  have hmemrep : ∀ x ∈ replaced, x = e ∨ x ∈ l := by
    rw [hrep]
    cases hf : findTsIdx e.ts l with
    | some i =>
      intro x hx
      exact mem_set_cases l i e x hx
    | none =>
      intro x hx
      rcases List.mem_append.mp hx with hx | hx
      · exact Or.inr hx
      · exact Or.inl (List.mem_singleton.mp hx)
  have hndrep : (replaced.map (fun x => x.ts)).Nodup := by
    rw [hrep]
    cases hf : findTsIdx e.ts l with
    | some i =>
      rw [tsmap_set_of_findTsIdx l e i hf]
      exact hndl
    | none =>
      have hnot : ∀ x ∈ l, x.ts ≠ e.ts := findTsIdx_none_imp l e.ts hf
      rw [List.map_append]
      simp only [List.map_cons, List.map_nil]
      refine List.Nodup.append hndl (List.nodup_singleton _) ?_
      intro a ha
      obtain ⟨x, hx, rfl⟩ := List.mem_map.mp ha
      simpa using fun he => hnot x hx he
  have hperm := List.perm_insertionSort manifestDescLE replaced
  have hsorted2 : (List.insertionSort manifestDescLE replaced).Pairwise
      manifestDescLE := List.sorted_insertionSort manifestDescLE replaced
  have hnd2 : ((List.insertionSort manifestDescLE replaced).map
      (fun x => x.ts)).Nodup := ((hperm.map (fun x => x.ts)).nodup_iff).mpr hndrep
  have hstrict := strict_of_sorted_nodupTs _ hsorted2 hnd2
  refine ⟨?_, ?_, ?_⟩
  · exact List.Pairwise.sublist (List.take_sublist _ _) hstrict
  · show ((List.insertionSort manifestDescLE replaced).take cap).length ≤ cap
    exact List.length_take_le _ _
  · intro x hx
    have hx2 : x ∈ List.insertionSort manifestDescLE replaced :=
      (List.take_sublist _ _).subset hx
    have hx3 : x ∈ replaced := hperm.subset hx2
    rcases hmemrep x hx3 with rfl | hx4
    · exact hpath
    · exact hpaths x hx4

theorem manifestInv_updateManifest (m : Manifest) (store : List String)
    (level : ManifestLevel) (timeValue path : String)
    (totalSpots totalActivations : Nat) (hinv : manifestInv m store)
    (hpath : path ∈ store) :
    manifestInv
      (updateManifest m level timeValue path totalSpots totalActivations
        (levelCap level)) store := by
  obtain ⟨h1, h2, h3⟩ := hinv
  cases level with
  | hourly => exact ⟨levelInv_updateLevelList _ _ _ _ h1 hpath, h2, h3⟩
  | daily => exact ⟨h1, levelInv_updateLevelList _ _ _ _ h2 hpath, h3⟩
  | monthly => exact ⟨h1, h2, levelInv_updateLevelList _ _ _ _ h3 hpath⟩

/-- C6 counterexample: starting from the loadable manifest `c6m0`
(which has two hourly entries with timestamp "a"), one `updateManifest`
call for timestamp "a" replaces only the first matching entry, so the
stored hourly list still has two entries with the same timestamp —
violating the claimed strict descending order and no-duplicates
property for arbitrary loadable starting states. -/
theorem C6_counterexample :
    (applyCmds c6m0 [⟨.hourly, "a", "r", 1, 2⟩]).hourly.map (fun e => e.ts) =
      ["a", "a"] := by
  simp [applyCmds, updateManifest, updateLevelList, findTsIdx, c6m0,
    List.insertionSort, List.orderedInsert, manifestDescLE, levelCap]

/-- C6 (amended): starting from a manifest state that satisfies the
invariants (each level strictly descending, within cap, all paths in
the store) — e.g. the empty manifest — any sequence of `updateManifest`
calls whose paths name existing objects preserves them: each level's
list stays strictly descending by timestamp (so duplicate-free), stays
within its cap (720/90/24), and records only paths that exist in the
store. (From an arbitrary loadable state the claim fails, see the
counterexample: only the updated level is re-sorted, and a duplicated
timestamp survives replace-first semantics.) -/
theorem C6_manifest_invariants :
    ∀ (m : Manifest) (store : List String) (cmds : List ManifestCmd),
      manifestInv m store → (∀ c ∈ cmds, c.path ∈ store) →
      manifestInv (applyCmds m cmds) store := by
  intro m store cmds
  induction cmds generalizing m with
  | nil => exact fun hinv _ => hinv
  | cons c cmds ih =>
    intro hinv hpaths
    exact ih _
      (manifestInv_updateManifest m store c.level c.timeValue c.path c.totalSpots
        c.totalActivations hinv (hpaths c (List.mem_cons_self _ _)))
      (fun c' hc' => hpaths c' (List.mem_cons_of_mem _ hc'))

/-- C6 witness: the amended statement applied to the empty manifest and
one concrete update whose path is in the store. -/
theorem C6_manifest_invariants_witness :
    manifestInv (applyCmds ⟨[], [], []⟩ [⟨.hourly, "2024-01-01T00:00:00.000Z",
      "hourly/2024/01/01/00-abc12345.ndjson", 3, 2⟩])
      ["hourly/2024/01/01/00-abc12345.ndjson"] :=
  C6_manifest_invariants ⟨[], [], []⟩ ["hourly/2024/01/01/00-abc12345.ndjson"]
    [⟨.hourly, "2024-01-01T00:00:00.000Z",
      "hourly/2024/01/01/00-abc12345.ndjson", 3, 2⟩]
    (by simp [manifestInv, levelInv]) (by simp)

theorem length_eq_of_sameStringSet (l1 l2 : List String) (h1 : l1.Nodup)
    (h2 : l2.Nodup) (hs : sameStringSet l1 l2) : l1.length = l2.length := by
  rw [← List.toFinset_card_of_nodup h1, ← List.toFinset_card_of_nodup h2]
  congr 1
  ext x
  simpa using hs x

theorem mapLookup_isSome_iff {α : Type} (k : String) (m : List (String × α)) :
    (∃ v, mapLookup k m = some v) ↔ k ∈ m.map Prod.fst := by
  induction m with
  | nil => simp [mapLookup]
  | cons p rest ih =>
    obtain ⟨k', v'⟩ := p
    simp only [mapLookup, List.map_cons, List.mem_cons]
    by_cases hk : k' = k
    · subst hk
      simp
    · rw [if_neg hk, ih]
      constructor
      · exact fun h => Or.inr h
      · rintro (h | h)
        · exact absurd h.symm hk
        · exact h

theorem keys_foldGroups_subset {β α : Type} (keyOf : β → String) (init : α)
    (step : α → β → α) (xs : List β) (m : List (String × α)) (k : String)
    (h : k ∈ (foldGroups keyOf init step m xs).map Prod.fst) :
    k ∈ m.map Prod.fst ∨ ∃ b ∈ xs, keyOf b = k := by
  induction xs generalizing m with
  | nil => exact Or.inl h
  | cons b xs ih =>
    rcases ih _ h with h' | h'
    · rw [keys_mapUpd] at h'
      split at h'
      · exact Or.inl h'
      · rcases List.mem_append.mp h' with h' | h'
        · exact Or.inl h'
        · exact Or.inr ⟨b, List.mem_cons_self _ _, (List.mem_singleton.mp h').symm⟩
    · obtain ⟨b', hb', hk⟩ := h'
      exact Or.inr ⟨b', List.mem_cons_of_mem _ hb', hk⟩

theorem mapLookup_map_conv {α β : Type} (conv : α → β) (k : String)
    (m : List (String × α)) :
    mapLookup k (m.map (fun kg => (kg.1, conv kg.2))) =
      (mapLookup k m).map conv := by
  induction m with
  | nil => simp [mapLookup]
  | cons p rest ih =>
    obtain ⟨k', v⟩ := p
    simp only [List.map_cons, mapLookup]
    by_cases hk : k' = k
    · rw [if_pos hk, if_pos hk]
      rfl
    · rw [if_neg hk, if_neg hk, ih]

theorem mem_groupsToAggregates (M : List (String × AggregateGroup))
    (r : BaseAggregate) :
    r ∈ groupsToAggregates M ↔
      ∃ kg ∈ M, tripleOk (keyTriple kg.1) ∧ r = mkRowB (keyTriple kg.1) kg.2 := by
  unfold groupsToAggregates
  simp only [List.mem_map, List.mem_filter, decide_eq_true_eq]
  constructor
  · rintro ⟨tg, ⟨⟨kg, hkg, rfl⟩, hok⟩, rfl⟩
    exact ⟨kg, hkg, hok, rfl⟩
  · rintro ⟨kg, hkg, hok, rfl⟩
    exact ⟨(keyTriple kg.1, kg.2), ⟨⟨kg, hkg, rfl⟩, hok⟩, rfl⟩

theorem direct_eq_groupsToAggregates (S : List NormalizedSpot) (hour : String) :
    hourlyBase (aggregateSpotsToHourly S hour) =
      groupsToAggregates ((spotGroups S).map (fun kg => (kg.1, sg2ag kg.2))) := by
  unfold hourlyBase aggregateSpotsToHourly groupsToAggregates
  rw [List.map_map, List.map_map, List.map_filter, List.map_filter, List.map_map,
    List.map_map]
  rfl

theorem keyOfTriple_keyTriple (m b e : String) (hm : pipeFreeStr m)
    (hb : pipeFreeStr b) (he : pipeFreeStr e) :
    keyOfTriple (keyTriple (m ++ "|" ++ b ++ "|" ++ e)) =
      m ++ "|" ++ b ++ "|" ++ e := by
  rw [keyTriple_concat m b e hm hb he]
  rfl

theorem filter_flatten_eq {β : Type} (p : β → Bool) (L : List (List β)) :
    (L.flatten.filter p) = (L.map (fun l => l.filter p)).flatten := by
  induction L with
  | nil => rfl
  | cons l L ih => simp [List.filter_append, ih]

theorem groupsToAggregates_cons (k : String) (g : AggregateGroup)
    (M : List (String × AggregateGroup)) :
    groupsToAggregates ((k, g) :: M) =
      (if tripleOk (keyTriple k) then [mkRowB (keyTriple k) g] else []) ++
        groupsToAggregates M := by
  unfold groupsToAggregates
  simp only [List.map_cons, List.filter_cons]
  by_cases h : tripleOk (keyTriple k)
  · rw [if_pos (by simpa using h), if_pos h]
    simp [mkRowB]
  · rw [if_neg (by simpa using h), if_neg h]
    simp

theorem mapLookup_eq_none_of_not_mem {α : Type} (k : String)
    (M : List (String × α)) (h : k ∉ M.map Prod.fst) : mapLookup k M = none := by
  cases hl : mapLookup k M with
  | none => rfl
  | some v => exact absurd ((mapLookup_isSome_iff k M).mp ⟨v, hl⟩) h

theorem keyFilter_rows (M : List (String × AggregateGroup)) (k : String)
    (hrec : ∀ k' ∈ M.map Prod.fst, keyOfTriple (keyTriple k') = k')
    (hnd : (M.map Prod.fst).Nodup) :
    keyFilter aggKey k (groupsToAggregates M) =
      match mapLookup k M with
      | some g => if tripleOk (keyTriple k) then [mkRowB (keyTriple k) g] else []
      | none => [] := by
  induction M with
  | nil => rfl
  | cons p M ih =>
    obtain ⟨k', g'⟩ := p
    simp only [List.map_cons, List.nodup_cons] at hnd
    have hrec' : ∀ k'' ∈ M.map Prod.fst, keyOfTriple (keyTriple k'') = k'' :=
      fun k'' h => hrec k'' (List.mem_cons_of_mem _ h)
    have hrecHead : keyOfTriple (keyTriple k') = k' :=
      hrec k' (List.mem_cons_self _ _)
    rw [groupsToAggregates_cons]
    unfold keyFilter
    rw [List.filter_append]
    by_cases hk : k' = k
    · subst hk
      have hnone : mapLookup k' M = none := mapLookup_eq_none_of_not_mem _ _ hnd.1
      have htail : List.filter (fun b => decide (aggKey b = k'))
          (groupsToAggregates M) = [] := by
        have h2 := ih hrec' hnd.2
        unfold keyFilter at h2
        rw [h2, hnone]
      rw [htail]
      have hRHS : (match mapLookup k' ((k', g') :: M) with
          | some g => if tripleOk (keyTriple k') then [mkRowB (keyTriple k') g]
                      else []
          | none => ([] : List BaseAggregate)) =
          if tripleOk (keyTriple k') then [mkRowB (keyTriple k') g'] else [] := by
        rw [show mapLookup k' ((k', g') :: M) = some g' from by simp [mapLookup]]
      rw [hRHS]
      by_cases hok : tripleOk (keyTriple k')
      · rw [if_pos hok]
        have hak : aggKey (mkRowB (keyTriple k') g') = k' := hrecHead
        simp [List.filter_cons, hak]
      · rw [if_neg hok]
        simp
    · have hhead : List.filter (fun b => decide (aggKey b = k))
          (if tripleOk (keyTriple k') then [mkRowB (keyTriple k') g'] else []) =
            [] := by
        by_cases hok : tripleOk (keyTriple k')
        · rw [if_pos hok]
          have hak : aggKey (mkRowB (keyTriple k') g') = k' := hrecHead
          simp [List.filter_cons, hak, hk]
        · rw [if_neg hok]
          rfl
      rw [hhead]
      simp only [List.nil_append]
      have h2 := ih hrec' hnd.2
      unfold keyFilter at h2
      rw [h2]
      simp only [mapLookup]
      rw [if_neg hk]

theorem spotGroups_keys_rec (S : List NormalizedSpot)
    (hfree : ∀ s ∈ S, spotPipeFree s) :
    ∀ k ∈ (spotGroups S).map Prod.fst, keyOfTriple (keyTriple k) = k := by
  intro k hk
  rcases keys_foldGroups_subset spotKey emptySpotGroup addSpotToGroup S [] k hk with
    h | ⟨s, hs, rfl⟩
  · simp at h
  · exact keyOfTriple_keyTriple s.mode s.band s.entity (hfree s hs).1
      (hfree s hs).2.1 (hfree s hs).2.2

theorem spotGroups_keys_nodup (S : List NormalizedSpot) :
    ((spotGroups S).map Prod.fst).Nodup :=
  nodup_keys_foldGroups _ _ _ _ _ (by simp)

theorem mapped_keys (M : List (String × SpotGroup)) :
    (M.map (fun kg => (kg.1, sg2ag kg.2))).map Prod.fst = M.map Prod.fst := by
  rw [List.map_map]
  exact List.map_congr_left (fun kg _ => rfl)

theorem perPart_rows (Si : List NormalizedSpot) (hour k : String)
    (hfree : ∀ s ∈ Si, spotPipeFree s) (hk : goodKey k) :
    keyFilter aggKey k (hourlyBase (aggregateSpotsToHourly Si hour)) =
      match mapLookup k (spotGroups Si) with
      | some g => [mkRowB (keyTriple k) (sg2ag g)]
      | none => [] := by
  have hrecM : ∀ k' ∈ ((spotGroups Si).map
      (fun kg => (kg.1, sg2ag kg.2))).map Prod.fst,
      keyOfTriple (keyTriple k') = k' := by
    intro k' hk'
    rw [mapped_keys] at hk'
    exact spotGroups_keys_rec Si hfree k' hk'
  have hndM : (((spotGroups Si).map (fun kg => (kg.1, sg2ag kg.2))).map
      Prod.fst).Nodup := by
    rw [mapped_keys]
    exact spotGroups_keys_nodup Si
  rw [direct_eq_groupsToAggregates, keyFilter_rows _ k hrecM hndM,
    mapLookup_map_conv]
  cases hl : mapLookup k (spotGroups Si) with
  | none => rfl
  | some g =>
    show (if tripleOk (keyTriple k) then [mkRowB (keyTriple k) (sg2ag g)]
        else []) = _
    rw [if_pos (show tripleOk (keyTriple k) from hk)]

theorem lookup_spotGroups (S : List NormalizedSpot) (k : String) :
    mapLookup k (spotGroups S) =
      match keyFilter spotKey k S with
      | [] => none
      | l => some (l.foldl addSpotToGroup emptySpotGroup) := by
  have h := lookup_foldGroups spotKey emptySpotGroup addSpotToGroup S [] k
  cases hf : keyFilter spotKey k S with
  | nil =>
    rw [hf] at h
    exact h
  | cons a l =>
    rw [hf] at h
    exact h

theorem perPart_rows_split (Si : List NormalizedSpot) (hour k : String)
    (hfree : ∀ s ∈ Si, spotPipeFree s) (hk : goodKey k) :
    (keyFilter spotKey k Si = [] →
      keyFilter aggKey k (hourlyBase (aggregateSpotsToHourly Si hour)) = []) ∧
    (∀ s0 l0, keyFilter spotKey k Si = s0 :: l0 →
      keyFilter aggKey k (hourlyBase (aggregateSpotsToHourly Si hour)) =
        [mkRowB (keyTriple k)
          (sg2ag ((s0 :: l0).foldl addSpotToGroup emptySpotGroup))]) := by
  constructor
  · intro h0
    rw [perPart_rows Si hour k hfree hk, lookup_spotGroups, h0]
  · intro s0 l0 h0
    rw [perPart_rows Si hour k hfree hk, lookup_spotGroups, h0]

theorem append_head_equiv (row : BaseAggregate) (Ck2 : List BaseAggregate)
    (hd Sk2 : List NormalizedSpot) (fA : BaseAggregate → List String)
    (P : NormalizedSpot → String → Prop)
    (hrow : ∀ x, x ∈ fA row ↔ ∃ s ∈ hd, P s x)
    (hih : ∀ x, (∃ a ∈ Ck2, x ∈ fA a) ↔ ∃ s ∈ Sk2, P s x) :
    ∀ x, (∃ a ∈ row :: Ck2, x ∈ fA a) ↔ ∃ s ∈ hd ++ Sk2, P s x := by
  intro x
  constructor
  · rintro ⟨a, ha, hx⟩
    rcases List.mem_cons.mp ha with rfl | ha
    · obtain ⟨s, hs, hP⟩ := (hrow x).mp hx
      exact ⟨s, List.mem_append_left _ hs, hP⟩
    · obtain ⟨s, hs, hP⟩ := (hih x).mp ⟨a, ha, hx⟩
      exact ⟨s, List.mem_append_right _ hs, hP⟩
  · rintro ⟨s, hs, hP⟩
    rcases List.mem_append.mp hs with hs | hs
    · exact ⟨row, List.mem_cons_self _ _, (hrow x).mpr ⟨s, hs, hP⟩⟩
    · obtain ⟨a, ha, hx⟩ := (hih x).mpr ⟨s, hs, hP⟩
      exact ⟨a, List.mem_cons_of_mem _ ha, hx⟩

theorem merged_fold_spec (hour k : String) (hk : goodKey k) :
    ∀ parts : List (List NormalizedSpot),
      (∀ Si ∈ parts, ∀ s ∈ Si, spotPipeFree s) →
      (keyFilter aggKey k (partsRows hour parts) = [] ↔
        keyFilter spotKey k parts.flatten = []) ∧
      ((keyFilter aggKey k (partsRows hour parts)).map
          (fun a => a.spot_count)).sum =
        (keyFilter spotKey k parts.flatten).length ∧
      (∀ x, (∃ a ∈ keyFilter aggKey k (partsRows hour parts), x ∈ a.activators) ↔
        ∃ s ∈ keyFilter spotKey k parts.flatten, x = s.activator) ∧
      (∀ x, (∃ a ∈ keyFilter aggKey k (partsRows hour parts), x ∈ a.parks) ↔
        ∃ s ∈ keyFilter spotKey k parts.flatten, x = s.reference) ∧
      (∀ x, (∃ a ∈ keyFilter aggKey k (partsRows hour parts),
          x ∈ a.activations) ↔
        ∃ s ∈ keyFilter spotKey k parts.flatten,
          x = s.activator ++ "|" ++ s.reference) ∧
      (∀ x, (∃ a ∈ keyFilter aggKey k (partsRows hour parts),
          x ∈ a.state_activators) ↔
        ∃ s ∈ keyFilter spotKey k parts.flatten,
          ∃ st, s.state = some st ∧ x = st ++ "|" ++ s.activator) := by
  intro parts
  induction parts with
  | nil =>
    intro _
    simp [partsRows, keyFilter]
  | cons Si parts ih =>
    intro hfree
    have hfreeSi : ∀ s ∈ Si, spotPipeFree s := hfree Si (List.mem_cons_self _ _)
    have ihh := ih (fun Sj hj => hfree Sj (List.mem_cons_of_mem _ hj))
    have hCk : keyFilter aggKey k (partsRows hour (Si :: parts)) =
        keyFilter aggKey k (hourlyBase (aggregateSpotsToHourly Si hour)) ++
          keyFilter aggKey k (partsRows hour parts) := by
      unfold partsRows keyFilter
      rw [List.map_cons, List.flatten_cons, List.filter_append]
    have hSk : keyFilter spotKey k (Si :: parts).flatten =
        keyFilter spotKey k Si ++ keyFilter spotKey k parts.flatten := by
      unfold keyFilter
      rw [List.flatten_cons, List.filter_append]
    rw [hCk, hSk]
    rcases hfe : keyFilter spotKey k Si with - | ⟨s0, l0⟩
    · rw [(perPart_rows_split Si hour k hfreeSi hk).1 hfe]
      simpa using ihh
    · rw [(perPart_rows_split Si hour k hfreeSi hk).2 s0 l0 hfe]
      obtain ⟨ih1, ih2, ih3, ih4, ih5, ih6⟩ := ihh
      have hfold : ((s0 :: l0).foldl addSpotToGroup emptySpotGroup).spots =
          s0 :: l0 := by
        rw [spotFold_spots]
        rfl
      have hrow1 : ∀ x, x ∈ (mkRowB (keyTriple k)
          (sg2ag ((s0 :: l0).foldl addSpotToGroup emptySpotGroup))).activators ↔
          ∃ s ∈ s0 :: l0, x = s.activator := by
        intro x
        show x ∈ ((s0 :: l0).foldl addSpotToGroup emptySpotGroup).activators ↔ _
        rw [spotFold_mem_activators]
        simp [emptySpotGroup]
      have hrow2 : ∀ x, x ∈ (mkRowB (keyTriple k)
          (sg2ag ((s0 :: l0).foldl addSpotToGroup emptySpotGroup))).parks ↔
          ∃ s ∈ s0 :: l0, x = s.reference := by
        intro x
        show x ∈ ((s0 :: l0).foldl addSpotToGroup emptySpotGroup).parks ↔ _
        rw [spotFold_mem_parks]
        simp [emptySpotGroup]
      have hrow3 : ∀ x, x ∈ (mkRowB (keyTriple k)
          (sg2ag ((s0 :: l0).foldl addSpotToGroup emptySpotGroup))).activations ↔
          ∃ s ∈ s0 :: l0, x = s.activator ++ "|" ++ s.reference := by
        intro x
        show x ∈ ((s0 :: l0).foldl addSpotToGroup emptySpotGroup).activations ↔ _
        rw [spotFold_mem_activations]
        simp [emptySpotGroup]
      have hrow4 : ∀ x, x ∈ (mkRowB (keyTriple k)
          (sg2ag ((s0 :: l0).foldl addSpotToGroup
            emptySpotGroup))).state_activators ↔
          ∃ s ∈ s0 :: l0, ∃ st, s.state = some st ∧
            x = st ++ "|" ++ s.activator := by
        intro x
        show x ∈ ((s0 :: l0).foldl addSpotToGroup
          emptySpotGroup).stateActivators ↔ _
        rw [spotFold_mem_stateActivators]
        simp [emptySpotGroup]
      refine ⟨?_, ?_, ?_, ?_, ?_, ?_⟩
      · simp
      · have hsc : (mkRowB (keyTriple k)
            (sg2ag ((s0 :: l0).foldl addSpotToGroup
              emptySpotGroup))).spot_count = (s0 :: l0).length := by
          show ((s0 :: l0).foldl addSpotToGroup emptySpotGroup).spots.length = _
          rw [hfold]
        simp only [List.singleton_append, List.map_cons, List.sum_cons,
          List.length_append, List.length_cons, hsc, ih2]
      · simpa only [List.singleton_append] using
          append_head_equiv _ _ _ _ (fun a => a.activators)
            (fun s x => x = s.activator) hrow1 ih3
      · simpa only [List.singleton_append] using
          append_head_equiv _ _ _ _ (fun a => a.parks)
            (fun s x => x = s.reference) hrow2 ih4
      · simpa only [List.singleton_append] using
          append_head_equiv _ _ _ _ (fun a => a.activations)
            (fun s x => x = s.activator ++ "|" ++ s.reference) hrow3 ih5
      · simpa only [List.singleton_append] using
          append_head_equiv _ _ _ _ (fun a => a.state_activators)
            (fun s x => ∃ st, s.state = some st ∧
              x = st ++ "|" ++ s.activator) hrow4 ih6

theorem exists_mem_perm {γ : Type} {P : γ → Prop} {A B : List γ}
    (h : A.Perm B) : (∃ s ∈ A, P s) ↔ ∃ s ∈ B, P s := by
  constructor <;> rintro ⟨s, hs, hp⟩
  · exact ⟨s, h.subset hs, hp⟩
  · exact ⟨s, h.symm.subset hs, hp⟩

theorem lookup_merge_nil (C : List BaseAggregate) (k : String) :
    mapLookup k (mergeAggregatesIntoGroups C []) =
      match keyFilter aggKey k C with
      | [] => none
      | l => some (l.foldl addAggToGroup emptyAggGroup) := by
  have h := lookup_foldGroups aggKey emptyAggGroup addAggToGroup C [] k
  cases hf : keyFilter aggKey k C with
  | nil =>
    rw [hf] at h
    exact h
  | cons a l =>
    rw [hf] at h
    exact h

theorem partition_group_equiv (S : List NormalizedSpot)
    (parts : List (List NormalizedSpot)) (hour k : String)
    (hfree : ∀ s ∈ S, spotPipeFree s) (hperm : S.Perm parts.flatten)
    (hk : goodKey k) :
    groupEquivOpt ((mapLookup k (spotGroups S)).map sg2ag)
      (mapLookup k (mergeAggregatesIntoGroups (partsRows hour parts) [])) := by
  have hfreeparts : ∀ Si ∈ parts, ∀ s ∈ Si, spotPipeFree s := by
    intro Si hSi s hs
    exact hfree s (hperm.mem_iff.mpr (List.mem_flatten.mpr ⟨Si, hSi, hs⟩))
  obtain ⟨spec1, spec2, spec3, spec4, spec5, spec6⟩ :=
    merged_fold_spec hour k hk parts hfreeparts
  have hpermf : (keyFilter spotKey k S).Perm
      (keyFilter spotKey k parts.flatten) := hperm.filter _
  rw [lookup_spotGroups, lookup_merge_nil]
  cases hfS : keyFilter spotKey k S with
  | nil =>
    have hfT : keyFilter spotKey k parts.flatten = [] := by
      rw [hfS] at hpermf
      exact hpermf.symm.eq_nil
    have hCk : keyFilter aggKey k (partsRows hour parts) = [] := spec1.mpr hfT
    rw [hCk]
    exact trivial
  | cons s0 l0 =>
    have hTne : keyFilter spotKey k parts.flatten ≠ [] := by
      intro h0
      rw [hfS, h0] at hpermf
      exact absurd hpermf.eq_nil (by simp)
    have hCkne : keyFilter aggKey k (partsRows hour parts) ≠ [] :=
      fun h0 => hTne (spec1.mp h0)
    cases hfC : keyFilter aggKey k (partsRows hour parts) with
    | nil => exact absurd hfC hCkne
    | cons a0 c0 =>
      show groupEquiv (sg2ag ((s0 :: l0).foldl addSpotToGroup emptySpotGroup))
        ((a0 :: c0).foldl addAggToGroup emptyAggGroup)
      have hlenT : (s0 :: l0).length = (keyFilter spotKey k parts.flatten).length := by
        rw [← hfS]
        exact hpermf.length_eq
      refine ⟨?_, ?_, ?_, ?_, ?_⟩
      · show ((s0 :: l0).foldl addSpotToGroup emptySpotGroup).spots.length = _
        rw [spotFold_spots, aggFold_spotCount, ← hfC, spec2]
        simpa [emptySpotGroup, emptyAggGroup] using hlenT
      · intro x
        show x ∈ ((s0 :: l0).foldl addSpotToGroup emptySpotGroup).activators ↔
          x ∈ ((a0 :: c0).foldl addAggToGroup emptyAggGroup).activators
        rw [spotFold_mem_activators, aggFold_mem_activators]
        simp only [emptySpotGroup, emptyAggGroup, List.not_mem_nil, false_or]
        rw [← hfS, ← hfC, exists_mem_perm hpermf]
        exact (spec3 x).symm
      · intro x
        show x ∈ ((s0 :: l0).foldl addSpotToGroup emptySpotGroup).parks ↔
          x ∈ ((a0 :: c0).foldl addAggToGroup emptyAggGroup).parks
        rw [spotFold_mem_parks, aggFold_mem_parks]
        simp only [emptySpotGroup, emptyAggGroup, List.not_mem_nil, false_or]
        rw [← hfS, ← hfC, exists_mem_perm hpermf]
        exact (spec4 x).symm
      · intro x
        show x ∈ ((s0 :: l0).foldl addSpotToGroup emptySpotGroup).activations ↔
          x ∈ ((a0 :: c0).foldl addAggToGroup emptyAggGroup).activations
        rw [spotFold_mem_activations, aggFold_mem_activations]
        simp only [emptySpotGroup, emptyAggGroup, List.not_mem_nil, false_or]
        rw [← hfS, ← hfC, exists_mem_perm hpermf]
        exact (spec5 x).symm
      · intro x
        show x ∈ ((s0 :: l0).foldl addSpotToGroup emptySpotGroup).stateActivators ↔
          x ∈ ((a0 :: c0).foldl addAggToGroup emptyAggGroup).stateActivators
        rw [spotFold_mem_stateActivators, aggFold_mem_stateActivators]
        simp only [emptySpotGroup, emptyAggGroup, List.not_mem_nil, false_or]
        rw [← hfS, ← hfC, exists_mem_perm hpermf]
        exact (spec6 x).symm

theorem groupEquivOpt_none_iff (o1 o2 : Option AggregateGroup)
    (h : groupEquivOpt o1 o2) : o1 = none ↔ o2 = none := by
  cases o1 <;> cases o2 <;> simp_all [groupEquivOpt]

theorem triples_nodup (M : List (String × AggregateGroup))
    (hrec : ∀ k ∈ M.map Prod.fst, keyOfTriple (keyTriple k) = k)
    (hnd : (M.map Prod.fst).Nodup) :
    ((groupsToAggregates M).map tripleOf).Nodup := by
  have heq : (groupsToAggregates M).map tripleOf =
      (M.filter (fun kg => decide (tripleOk (keyTriple kg.1)))).map
        (fun kg => keyTriple kg.1) := by
    unfold groupsToAggregates
    rw [List.filter_map, List.map_map, List.map_map]
    rfl
  rw [heq]
  have hinj := List.inj_on_of_nodup_map hnd
  refine List.Nodup.map_on ?_ ((hnd.of_map).filter _)
  intro kg hkg kg' hkg' he
  have h1 : kg.1 = kg'.1 := by
    have ha := hrec kg.1 (List.mem_map_of_mem Prod.fst (List.mem_of_mem_filter hkg))
    have hb := hrec kg'.1
      (List.mem_map_of_mem Prod.fst (List.mem_of_mem_filter hkg'))
    rw [← ha, ← hb, he]
  exact hinj (List.mem_of_mem_filter hkg) (List.mem_of_mem_filter hkg') h1

theorem row_triple_iff (M : List (String × AggregateGroup))
    (hrec : ∀ k ∈ M.map Prod.fst, keyOfTriple (keyTriple k) = k)
    (t : String × String × String) :
    (∃ r ∈ groupsToAggregates M, tripleOf r = t) ↔
      (tripleOk t ∧ keyTriple (keyOfTriple t) = t ∧
        keyOfTriple t ∈ M.map Prod.fst) := by
  constructor
  · rintro ⟨r, hr, ht⟩
    obtain ⟨kg, hkg, hok, rfl⟩ := (mem_groupsToAggregates M _).mp hr
    have ht' : keyTriple kg.1 = t := ht
    have hkey : kg.1 = keyOfTriple t := by
      rw [← ht', hrec kg.1 (List.mem_map_of_mem Prod.fst hkg)]
    refine ⟨ht' ▸ hok, ?_, hkey ▸ List.mem_map_of_mem Prod.fst hkg⟩
    rw [← hkey, ht']
  · rintro ⟨hok, hback, hk⟩
    obtain ⟨kg, hkg, hkey⟩ := List.mem_map.mp hk
    have ht' : keyTriple kg.1 = t := by rw [hkey, hback]
    refine ⟨mkRowB (keyTriple kg.1) kg.2,
      (mem_groupsToAggregates M _).mpr ⟨kg, hkg, ht' ▸ hok, rfl⟩, ht'⟩

theorem rows_pipeFree_hour (Si : List NormalizedSpot) (hour : String)
    (hfree : ∀ s ∈ Si, spotPipeFree s) :
    ∀ a ∈ hourlyBase (aggregateSpotsToHourly Si hour), aggPipeFree a := by
  intro a ha
  rw [direct_eq_groupsToAggregates] at ha
  obtain ⟨kg, hkg, hok, rfl⟩ := (mem_groupsToAggregates _ _).mp ha
  have hk1 : kg.1 ∈ (spotGroups Si).map Prod.fst := by
    have hmem : kg.1 ∈ ((spotGroups Si).map
        (fun kg => (kg.1, sg2ag kg.2))).map Prod.fst :=
      List.mem_map_of_mem Prod.fst hkg
    rwa [mapped_keys] at hmem
  rcases keys_foldGroups_subset spotKey emptySpotGroup addSpotToGroup Si []
      kg.1 hk1 with h | ⟨s, hs, hkey⟩
  · simp at h
  · have hsf := hfree s hs
    have ht : keyTriple kg.1 = (s.mode, s.band, s.entity) := by
      rw [← hkey]
      exact keyTriple_spotKey s hsf
    show aggPipeFree (mkRowB (keyTriple kg.1) kg.2)
    rw [ht]
    exact ⟨hsf.1, hsf.2.1, hsf.2.2⟩

theorem partsRows_pipeFree (hour : String) (parts : List (List NormalizedSpot))
    (hfree : ∀ Si ∈ parts, ∀ s ∈ Si, spotPipeFree s) :
    ∀ a ∈ partsRows hour parts, aggPipeFree a := by
  intro a ha
  unfold partsRows at ha
  obtain ⟨l, hl, ha⟩ := List.mem_flatten.mp ha
  obtain ⟨Si, hSi, rfl⟩ := List.mem_map.mp hl
  exact rows_pipeFree_hour Si hour (hfree Si hSi) a ha

theorem merged_keys_rec (hour : String) (parts : List (List NormalizedSpot))
    (hfree : ∀ Si ∈ parts, ∀ s ∈ Si, spotPipeFree s) :
    ∀ k ∈ (mergeAggregatesIntoGroups (partsRows hour parts) []).map Prod.fst,
      keyOfTriple (keyTriple k) = k := by
  intro k hk
  rcases keys_foldGroups_subset aggKey emptyAggGroup addAggToGroup
      (partsRows hour parts) [] k hk with h | ⟨a, ha, rfl⟩
  · simp at h
  · have hp := partsRows_pipeFree hour parts hfree a ha
    rw [keyTriple_aggKey a hp]
    rfl

theorem spotGroups_values_nodup (S : List NormalizedSpot) :
    ∀ kg ∈ spotGroups S, agNodup (sg2ag kg.2) := by
  intro kg hkg
  have hP : spotGroupInv kg.2 :=
    values_foldGroups spotKey emptySpotGroup addSpotToGroup S []
      (P := spotGroupInv) (by simp [spotGroupInv, emptySpotGroup])
      (fun g s _ hg => spotGroupInv_step g s hg) (by simp) kg.2
      (List.mem_map_of_mem Prod.snd hkg)
  exact ⟨hP.1, hP.2.1, hP.2.2.1, hP.2.2.2.1⟩

theorem merged_values_nodup (C : List BaseAggregate) :
    ∀ kg ∈ mergeAggregatesIntoGroups C [], agNodup kg.2 := by
  intro kg hkg
  exact values_foldGroups aggKey emptyAggGroup addAggToGroup C []
    (P := agNodup) (by simp [agNodup, emptyAggGroup])
    (fun g b _ hg => ⟨nodup_insertAll _ _ hg.1, nodup_insertAll _ _ hg.2.1,
      nodup_insertAll _ _ hg.2.2.1, nodup_insertAll _ _ hg.2.2.2⟩)
    (by simp) kg.2 (List.mem_map_of_mem Prod.snd hkg)

theorem partition_keys_iff (S : List NormalizedSpot)
    (parts : List (List NormalizedSpot)) (hour k : String)
    (hfree : ∀ s ∈ S, spotPipeFree s) (hperm : S.Perm parts.flatten)
    (hk : goodKey k) :
    (k ∈ ((spotGroups S).map (fun kg => (kg.1, sg2ag kg.2))).map Prod.fst ↔
      k ∈ (mergeAggregatesIntoGroups (partsRows hour parts) []).map Prod.fst) := by
  have hgeq := partition_group_equiv S parts hour k hfree hperm hk
  have hnone := groupEquivOpt_none_iff _ _ hgeq
  rw [← mapLookup_isSome_iff, ← mapLookup_isSome_iff, mapLookup_map_conv]
  constructor
  · rintro ⟨v, hv⟩
    cases h2 : mapLookup k (mergeAggregatesIntoGroups (partsRows hour parts) [])
      with
    | some w => exact ⟨w, rfl⟩
    | none =>
      rw [hnone.mpr h2] at hv
      cases hv
  · rintro ⟨v, hv⟩
    cases h1 : (mapLookup k (spotGroups S)).map sg2ag with
    | some w => exact ⟨w, rfl⟩
    | none =>
      rw [hnone.mp h1] at hv
      cases hv

theorem partition_rows_equiv (S : List NormalizedSpot)
    (parts : List (List NormalizedSpot)) (hour : String)
    (hfree : ∀ s ∈ S, spotPipeFree s) (hperm : S.Perm parts.flatten) :
    aggRowsEquiv (hourlyBase (aggregateSpotsToHourly S hour))
      (groupsToAggregates
        (mergeAggregatesIntoGroups (partsRows hour parts) [])) := by
  have hfreeparts : ∀ Si ∈ parts, ∀ s ∈ Si, spotPipeFree s := by
    intro Si hSi s hs
    exact hfree s (hperm.mem_iff.mpr (List.mem_flatten.mpr ⟨Si, hSi, hs⟩))
  have hrec1 : ∀ k ∈ ((spotGroups S).map
      (fun kg => (kg.1, sg2ag kg.2))).map Prod.fst,
      keyOfTriple (keyTriple k) = k := by
    intro k hk
    rw [mapped_keys] at hk
    exact spotGroups_keys_rec S hfree k hk
  have hnd1 : (((spotGroups S).map
      (fun kg => (kg.1, sg2ag kg.2))).map Prod.fst).Nodup := by
    rw [mapped_keys]
    exact spotGroups_keys_nodup S
  have hrec2 := merged_keys_rec hour parts hfreeparts
  have hnd2 : ((mergeAggregatesIntoGroups (partsRows hour parts) []).map
      Prod.fst).Nodup := nodup_keys_foldGroups _ _ _ _ _ (by simp)
  rw [direct_eq_groupsToAggregates]
  refine ⟨triples_nodup _ hrec1 hnd1, triples_nodup _ hrec2 hnd2, ?_, ?_⟩
  · intro t
    rw [row_triple_iff _ hrec1 t, row_triple_iff _ hrec2 t]
    constructor
    · rintro ⟨hok, hback, hmem⟩
      have hgk : goodKey (keyOfTriple t) := by
        show tripleOk (keyTriple (keyOfTriple t))
        rw [hback]
        exact hok
      exact ⟨hok, hback,
        (partition_keys_iff S parts hour _ hfree hperm hgk).mp hmem⟩
    · rintro ⟨hok, hback, hmem⟩
      have hgk : goodKey (keyOfTriple t) := by
        show tripleOk (keyTriple (keyOfTriple t))
        rw [hback]
        exact hok
      exact ⟨hok, hback,
        (partition_keys_iff S parts hour _ hfree hperm hgk).mpr hmem⟩
  · intro rA hA rB hB ht
    obtain ⟨kgA, hkgA, hokA, rfl⟩ := (mem_groupsToAggregates _ _).mp hA
    obtain ⟨kgB, hkgB, hokB, rfl⟩ := (mem_groupsToAggregates _ _).mp hB
    have ht' : keyTriple kgA.1 = keyTriple kgB.1 := ht
    have hkeq : kgA.1 = kgB.1 := by
      have ha := hrec1 kgA.1 (List.mem_map_of_mem Prod.fst hkgA)
      have hb := hrec2 kgB.1 (List.mem_map_of_mem Prod.fst hkgB)
      rw [← ha, ← hb, ht']
    have hgk : goodKey kgA.1 := hokA
    have hgeq := partition_group_equiv S parts hour kgA.1 hfree hperm hgk
    have hlA : mapLookup kgA.1 ((spotGroups S).map
        (fun kg => (kg.1, sg2ag kg.2))) = some kgA.2 :=
      (mem_iff_mapLookup kgA.1 kgA.2 _ hnd1).mp hkgA
    have hlB : mapLookup kgB.1
        (mergeAggregatesIntoGroups (partsRows hour parts) []) = some kgB.2 :=
      (mem_iff_mapLookup kgB.1 kgB.2 _ hnd2).mp hkgB
    rw [mapLookup_map_conv] at hlA
    rw [hlA, hkeq, hlB] at hgeq
    have hge : groupEquiv kgA.2 kgB.2 := hgeq
    obtain ⟨kg0, hkg0, rfl⟩ := List.mem_map.mp hkgA
    have hndA : agNodup (sg2ag kg0.2) := spotGroups_values_nodup S kg0 hkg0
    have hndB : agNodup kgB.2 := merged_values_nodup _ kgB hkgB
    exact ⟨hge.1,
      length_eq_of_sameStringSet _ _ hndA.2.2.1 hndB.2.2.1 hge.2.2.2.1,
      length_eq_of_sameStringSet _ _ hndA.1 hndB.1 hge.2.1,
      length_eq_of_sameStringSet _ _ hndA.2.1 hndB.2.1 hge.2.2.1,
      hge.2.1, hge.2.2.1, hge.2.2.2.1, hge.2.2.2.2⟩

theorem foldGroups_append {β α : Type} (keyOf : β → String) (init : α)
    (step : α → β → α) (m : List (String × α)) (xs ys : List β) :
    foldGroups keyOf init step m (xs ++ ys) =
      foldGroups keyOf init step (foldGroups keyOf init step m xs) ys := by
  induction xs generalizing m with
  | nil => rfl
  | cons b xs ih => exact ih _

theorem merge_fold_perm_equiv (L1 L2 : List BaseAggregate) (h : L1.Perm L2) :
    groupEquiv (L1.foldl addAggToGroup emptyAggGroup)
      (L2.foldl addAggToGroup emptyAggGroup) := by
  refine ⟨?_, ?_, ?_, ?_, ?_⟩
  · rw [aggFold_spotCount, aggFold_spotCount,
      (h.map (fun a => a.spot_count)).sum_eq]
  · intro x
    rw [aggFold_mem_activators, aggFold_mem_activators]
    exact or_congr Iff.rfl (exists_mem_perm h)
  · intro x
    rw [aggFold_mem_parks, aggFold_mem_parks]
    exact or_congr Iff.rfl (exists_mem_perm h)
  · intro x
    rw [aggFold_mem_activations, aggFold_mem_activations]
    exact or_congr Iff.rfl (exists_mem_perm h)
  · intro x
    rw [aggFold_mem_stateActivators, aggFold_mem_stateActivators]
    exact or_congr Iff.rfl (exists_mem_perm h)

/-- C1 counterexample: for the two spots `c1spotA` (mode `"a|b"`) and
`c1spotB` (mode `"a"`, band `"b"`, entity `"c"`), direct aggregation
emits two rows carrying the same `(mode, band, entity)` triple
`("a","b","c")`, while aggregating the two singleton parts separately
and merging collapses them into one row — so the partition/merge
equation fails without a `'|'`-free proviso. -/
theorem C1_counterexample :
    (hourlyBase (aggregateSpotsToHourly [c1spotA, c1spotB] "h")).map tripleOf =
      [("a", "b", "c"), ("a", "b", "c")] ∧
    (groupsToAggregates (mergeAggregatesIntoGroups
        (partsRows "h" [[c1spotA], [c1spotB]]) [])).length = 1 ∧
    ¬ aggRowsEquiv (hourlyBase (aggregateSpotsToHourly [c1spotA, c1spotB] "h"))
        (groupsToAggregates (mergeAggregatesIntoGroups
          (partsRows "h" [[c1spotA], [c1spotB]]) [])) :=
  ⟨by decide, by decide, fun hcontra => absurd hcontra.1 (by decide)⟩

/-- C1: for spots whose `mode`, `band` and `entity` are free of the
separator `'|'` (without this proviso the claim fails, see
`C1_counterexample`), aggregating a spot list `S` directly with
`aggregateSpotsToHourly` agrees metric-by-metric with aggregating each
part of any partition of `S` separately and merging the child rows via
`mergeAggregatesIntoGroups`/`groupsToAggregates`: the same key triples
occur, each exactly once on both sides, set-valued fields agree as
sets, `spot_count` is summed over children, and the cardinality fields
are recomputed from the unions. Moreover the merge is commutative (per
key, up to metric equivalence) and associative (exactly, on the group
accumulator), so the order of merge inputs is irrelevant. -/
theorem C1_partition_merge :
    (∀ (S : List NormalizedSpot) (parts : List (List NormalizedSpot))
        (hour : String),
      (∀ s ∈ S, spotPipeFree s) → S.Perm parts.flatten →
      aggRowsEquiv (hourlyBase (aggregateSpotsToHourly S hour))
        (groupsToAggregates
          (mergeAggregatesIntoGroups (partsRows hour parts) []))) ∧
    (∀ (A B : List BaseAggregate) (k : String),
      groupEquivOpt (mapLookup k (mergeAggregatesIntoGroups (A ++ B) []))
        (mapLookup k (mergeAggregatesIntoGroups (B ++ A) []))) ∧
    (∀ (A B : List BaseAggregate) (g0 : List (String × AggregateGroup)),
      mergeAggregatesIntoGroups B (mergeAggregatesIntoGroups A g0) =
        mergeAggregatesIntoGroups (A ++ B) g0) := by
  refine ⟨fun S parts hour hfree hperm =>
    partition_rows_equiv S parts hour hfree hperm, ?_, ?_⟩
  · intro A B k
    rw [lookup_merge_nil, lookup_merge_nil]
    have hp : (keyFilter aggKey k (A ++ B)).Perm (keyFilter aggKey k (B ++ A)) :=
      List.perm_append_comm.filter _
    cases h1 : keyFilter aggKey k (A ++ B) with
    | nil =>
      have h2 : keyFilter aggKey k (B ++ A) = [] := by
        rw [h1] at hp
        exact hp.symm.eq_nil
      rw [h2]
      exact trivial
    | cons a l =>
      cases h2 : keyFilter aggKey k (B ++ A) with
      | nil =>
        rw [h1, h2] at hp
        exact absurd hp.eq_nil (by simp)
      | cons b m =>
        show groupEquiv ((a :: l).foldl addAggToGroup emptyAggGroup)
          ((b :: m).foldl addAggToGroup emptyAggGroup)
        rw [h1, h2] at hp
        exact merge_fold_perm_equiv _ _ hp
  · intro A B g0
    exact (foldGroups_append aggKey emptyAggGroup addAggToGroup g0 A B).symm

theorem C1_partition_merge_witness :
    aggRowsEquiv (hourlyBase (aggregateSpotsToHourly [c1w1, c1w2] "h"))
      (groupsToAggregates (mergeAggregatesIntoGroups
        (partsRows "h" [[c1w1], [c1w2]]) [])) ∧
    groupEquivOpt
      (mapLookup "cw|40m|K" (mergeAggregatesIntoGroups ([] ++ []) []))
      (mapLookup "cw|40m|K" (mergeAggregatesIntoGroups ([] ++ []) [])) ∧
    mergeAggregatesIntoGroups [] (mergeAggregatesIntoGroups [] []) =
      mergeAggregatesIntoGroups ([] ++ []) [] :=
  ⟨C1_partition_merge.1 [c1w1, c1w2] [[c1w1], [c1w2]] "h" (by decide)
      (List.Perm.refl _),
    C1_partition_merge.2.1 [] [] "cw|40m|K",
    C1_partition_merge.2.2 [] [] []⟩

end PotaStats

